import Mathlib

/-!
# Verification of the catenary routing engine core

A shallow embedding of the road-network builder and the Dijkstra/A* path
finder (`src/lib.rs`, modules `road_network` and `road_dijkstras`), together
with proofs and refutations of the specification's claims.

Modelling conventions:

* Rust `HashMap`s are modelled by Mathlib `AList`s over `Int` keys
  (association lists with no duplicate keys); `HashMap::insert` is
  `AList.insert` (which overwrites), `get`/`contains_key` are `AList.lookup`,
  `len` is `entries.length`.  Iteration order of a `HashMap` is unspecified;
  claims settled below do not depend on it.
* `u64` is modelled by `Nat`; the `u64::MAX` default bounds of the finder
  are the literal `2 ^ 64 - 1`.
* The `f64` distance computation is modelled by exact real arithmetic,
  evaluated with integer square roots: for a nonnegative integer `S`,
  the truncation `(sqrt (S / 10^14) as u64)` equals `Nat.sqrt S / 10 ^ 7`,
  and `((speed as f64) * 5.0 / 18.0) as u64` equals `speed * 5 / 18` in `Nat`
  (the quotients `speed * 5 / 18` for the table speeds are far from integer
  boundaries, so `f64` rounding cannot change the truncated value).
* Rust panics (failed `unwrap`, index out of bounds, `usize` underflow in
  `refs.len() - 1`, and `u64` division by zero in the cost formula) are
  modelled by an `Option` result, with `none` for the panic.
* `BinaryHeap<Reverse<(u64, RoadPathedNode)>>` is modelled by a list from
  which `popMin` extracts an entry of minimal key; among entries with equal
  keys Rust breaks ties by the derived order on the record, the model by
  list position.  The claims below are insensitive to the tie order.
* The `while` loop of `dijkstra` is modelled with an explicit fuel
  parameter; `dijkstraFuel` is proved large enough whenever a result is
  asserted, so the fuel is an artifact of the embedding, not a new bound.
-/

set_option maxRecDepth 100000

namespace CatenaryRouting

/-- `road_network::Node`: OSM node with fixed-point coordinates. -/
structure Node where
  id : Int
  lat : Int
  lon : Int
deriving DecidableEq

/-- `road_network::Way`: way with derived speed and ordered node references. -/
structure Way where
  id : Int
  speed : Nat
  refs : List Int
deriving DecidableEq

abbrev NodeMap := AList (fun _ : Int => Node)
abbrev InnerEdges := AList (fun _ : Int => Nat × Bool)
abbrev EdgeMap := AList (fun _ : Int => InnerEdges)
abbrev HeurMap := AList (fun _ : Int => Nat)
abbrev VisitMap := AList (fun _ : Int => Nat)
abbrev CountMap := AList (fun _ : Int => Int)
abbrev PrevMap := AList (fun _ : Int => Int)

/-- `road_network::RoadNetwork`. -/
structure RoadNetwork where
  nodes : NodeMap
  edges : EdgeMap
  raw_ways : List Way
  raw_nodes : List Int

/-- `road_network::speed_calc`. -/
def speed_calc (highway : String) : Option Nat :=
  match highway with
  | "motorway" => some 110
  | "trunk" => some 110
  | "primary" => some 70
  | "secondary" => some 60
  | "tertiary" => some 50
  | "motorway_link" => some 50
  | "trunk_link" => some 50
  | "primary_link" => some 50
  | "secondary_link" => some 50
  | "road" => some 40
  | "unclassified" => some 40
  | "residential" => some 30
  | "unsurfaced" => some 30
  | "living_street" => some 10
  | "service" => some 5
  | _ => none

/-- Fuelled integer square root (`sqrtFuel fuel n = Nat.sqrt n` whenever
`n ≤ fuel`, proved below).  `Nat.sqrt` itself is defined by well-founded
recursion and does not reduce inside the kernel; this structurally recursive
version lets concrete fixtures evaluate by `decide`. -/
def sqrtFuel : Nat → Nat → Nat
  | 0, _ => 0
  | fuel + 1, n =>
    if n = 0 then 0
    else
      let s := 2 * sqrtFuel fuel (n / 4)
      if (s + 1) * (s + 1) ≤ n then s + 1 else s

/-- Executable integer square root; equal to `Nat.sqrt` (see
`natSqrt_eq_sqrt`). -/
def natSqrt (n : Nat) : Nat := sqrtFuel n n

/-- The integer `(Δlat·111229)² + (Δlon·71695)²`; the squared planar distance
of the segment scaled by `10^14`. -/
def distSq (tail head : Node) : Int :=
  ((head.lat - tail.lat) * 111229) ^ 2 + ((head.lon - tail.lon) * 71695) ^ 2

/-- The truncated planar distance in meters: `(c as u64)` of the source,
under exact real arithmetic: `(c as u64) = Nat.sqrt (distSq) / 10 ^ 7`. -/
def distFloor (tail head : Node) : Nat :=
  natSqrt (distSq tail head).toNat / 10 ^ 7

/-- The segment cost of `RoadNetwork::new` (lines 77-82 of the source):
`cost = (c as u64) / (((speed as f64) * 5.0 / 18.0) as u64)` where
`c = sqrt(a + b)` is the planar distance in meters and the truncated
speed in m/s is `speed * 5 / 18`.  A zero truncated speed makes the Rust
`u64` division panic; callers treat that case as a failure. -/
def segCostNat (tail head : Node) (speed : Nat) : Nat :=
  distFloor tail head / (speed * 5 / 18)

/-- One double insertion of `RoadNetwork::new` (lines 84-103): the directed
entry `tailId → headId` and the reverse entry `headNodeId → tailId`, where
`headNodeId` is the `id` field of the head node (the source uses `head.id`
for the second outer key but the raw reference `head_id` for the first inner
key). -/
def insertEdgePair (edges : EdgeMap) (tailId headId headNodeId : Int) (cost : Nat) : EdgeMap :=
  let e1 := edges.insert tailId (((edges.lookup tailId).getD ∅).insert headId (cost, false))
  e1.insert headNodeId (((e1.lookup headNodeId).getD ∅).insert tailId (cost, false))

/-- One iteration of the segment loop of `RoadNetwork::new`.  The second
component of the accumulator models `previous_head_node_now_tail` together
with the index check `previous_head_node_index == i`: it is `some head`
exactly when the immediately preceding iteration succeeded, in which case the
cached head node is used as the tail.  `none` is the division-by-zero panic
of the cost formula. -/
def wayStep (nm : NodeMap) (speed : Nat) (acc : EdgeMap × Option Node) (pr : Int × Int) :
    Option (EdgeMap × Option Node) :=
  let tail? : Option Node :=
    match acc.2 with
    | some cached => some cached
    | none => nm.lookup pr.1
  match tail?, nm.lookup pr.2 with
  | some tail, some head =>
      if speed * 5 / 18 = 0 then none
      else some (insertEdgePair acc.1 pr.1 pr.2 head.id (segCostNat tail head speed), some head)
  | _, _ => some (acc.1, none)

def wayFold (nm : NodeMap) (speed : Nat) : List (Int × Int) → EdgeMap × Option Node → Option EdgeMap
  | [], acc => some acc.1
  | pr :: rest, acc =>
    match wayStep nm speed acc pr with
    | none => none
    | some acc2 => wayFold nm speed rest acc2

/-- The consecutive reference pairs `(refs[i], refs[i+1])` for
`i in 0..len-1`. -/
def refPairs (refs : List Int) : List (Int × Int) := refs.zip refs.tail

/-- Processing of one way.  An empty `refs` makes the Rust expression
`way.refs.len() - 1` underflow, which panics (in release mode the wrapped
bound then makes `way.refs[0]` panic instead); either way the construction
fails, modelled by `none`. -/
def processWay (nm : NodeMap) (edges : EdgeMap) (w : Way) : Option EdgeMap :=
  match w.refs with
  | [] => none
  | _ :: _ => wayFold nm w.speed (refPairs w.refs) (edges, none)

def processWays (nm : NodeMap) : List Way → EdgeMap → Option EdgeMap
  | [], e => some e
  | w :: rest, e =>
    match processWay nm e w with
    | none => none
    | some e2 => processWays nm rest e2

/-- The pruning pass of `RoadNetwork::new` (lines 109-116): remove every node
whose id has no entry in the edge map. -/
def filterNodes (nm : NodeMap) (edges : EdgeMap) : NodeMap :=
  ⟨nm.entries.filter (fun s => (edges.lookup s.1).isSome),
    List.NodupKeys.sublist (List.filter_sublist _) nm.nodupKeys⟩

/-- `RoadNetwork::new` (= the spec's `build_graph`). -/
def RoadNetwork.new (nm : NodeMap) (ways : List Way) : Option RoadNetwork :=
  match processWays nm ways ∅ with
  | none => none
  | some edges =>
      let pruned := filterNodes nm edges
      some { nodes := pruned, edges := edges, raw_ways := ways, raw_nodes := pruned.keys }

/-- The spec's name for `RoadNetwork::new`. -/
def build_graph (nm : NodeMap) (ways : List Way) : Option RoadNetwork :=
  RoadNetwork.new nm ways

/-- Directed edge entry `edges[u][v]`. -/
def edgeEntry (g : RoadNetwork) (u v : Int) : Option (Nat × Bool) :=
  (g.edges.lookup u).bind (fun inner => inner.lookup v)

/-- `road_dijkstras::RoadPathedNode`: an immutable lineage record; the
`parent_node : Option<Rc<RoadPathedNode>>` field is inlined into the two
constructors (`root` for `None`, `child` for `Some`); the `parent_node`
projection below recovers the `Option` view. -/
inductive RoadPathedNode : Type where
  | root (node_self : Node) (distance_from_start : Nat)
  | child (node_self : Node) (distance_from_start : Nat) (parent : RoadPathedNode)
deriving DecidableEq

def RoadPathedNode.node_self : RoadPathedNode → Node
  | .root n _ => n
  | .child n _ _ => n

def RoadPathedNode.distance_from_start : RoadPathedNode → Nat
  | .root _ d => d
  | .child _ d _ => d

def RoadPathedNode.parent_node : RoadPathedNode → Option RoadPathedNode
  | .root _ _ => none
  | .child _ _ p => some p

/-- The node list accumulated by `RoadPathedNode::get_path`: the record's own
node first, then its parents up to the search origin. -/
def RoadPathedNode.path_nodes : RoadPathedNode → List Node
  | .root n _ => [n]
  | .child n _ p => n :: p.path_nodes

/-- `RoadPathedNode::get_path`. -/
def RoadPathedNode.get_path (r : RoadPathedNode) : List Node × Nat :=
  (r.path_nodes, r.distance_from_start)

/-- The strict ancestors of a path record: its parent, grandparent, and so
on up to the search origin. -/
def ancestorRecords : RoadPathedNode → List RoadPathedNode
  | .root _ _ => []
  | .child _ _ p => p :: ancestorRecords p

/-- `road_dijkstras::RoadDijkstra`. -/
structure RoadDijkstra where
  graph : RoadNetwork
  visited_nodes : VisitMap
  cost_upper_bound : Nat
  max_settled_nodes : Nat

def u64MAX : Nat := 2 ^ 64 - 1

/-- `RoadDijkstra::new`: note that the Rust constructor stores a deep clone
of the graph, so the finder owns its own copy. -/
def RoadDijkstra.new (g : RoadNetwork) : RoadDijkstra :=
  { graph := g, visited_nodes := ∅, cost_upper_bound := u64MAX, max_settled_nodes := u64MAX }

def RoadDijkstra.set_cost_upper_bound (d : RoadDijkstra) (upper_bound : Nat) : RoadDijkstra :=
  { d with cost_upper_bound := upper_bound }

def RoadDijkstra.set_max_settled_nodes (d : RoadDijkstra) (max_settled : Nat) : RoadDijkstra :=
  { d with max_settled_nodes := max_settled }

theorem sigmaMapKeys {β γ : Int → Type} (l : List (Sigma β)) (f : ∀ a, β a → γ a) :
    (l.map (fun s => (⟨s.1, f s.1 s.2⟩ : Sigma γ))).keys = l.keys := by
  induction l with
  | nil => rfl
  | cons a t ih => simp only [List.map_cons, List.keys_cons, ih]

/-- Map a function over the values of an association list, keeping keys. -/
def alistMapVals {β γ : Type} (f : Int → β → γ) (s : AList (fun _ : Int => β)) :
    AList (fun _ : Int => γ) :=
  ⟨s.entries.map (fun e => ⟨e.1, f e.1 e.2⟩), by
    have h := sigmaMapKeys (γ := fun _ : Int => γ) s.entries (fun a b => f a b)
    simpa [List.NodupKeys, h] using s.nodupKeys⟩

/-- The heuristic value of `a_star_heuristic` for one node: planar distance
to the target divided by the truncated motorway speed `110 * 5 / 18 = 30`. -/
def heuristicVal (head tail : Node) : Nat :=
  distFloor tail head / (110 * 5 / 18)

/-- `road_dijkstras::a_star_heuristic`; `none` is the `unwrap` panic when the
target id is not a node of the graph. -/
def a_star_heuristic (g : RoadNetwork) (target : Int) : Option HeurMap :=
  (g.nodes.lookup target).map (fun tail => alistMapVals (fun _ head => heuristicVal head tail) g.nodes)

/-- `RoadDijkstra::get_neighbors`, working over the entry list of the inner
edge map: skip settled heads, skip unflagged heads when arc-flag filtering is
on, and pair the remaining heads with their edge cost; `none` is the `unwrap`
panic when a head id is not a node of the graph. -/
def neighborsCollect (g : RoadNetwork) (visited : VisitMap) (consider : Bool) :
    List (Sigma fun _ : Int => Nat × Bool) → Option (List (Node × Nat))
  | [] => some []
  | e :: rest =>
    if (visited.lookup e.1).isSome then neighborsCollect g visited consider rest
    else if consider && !e.2.2 then neighborsCollect g visited consider rest
    else
      match g.nodes.lookup e.1 with
      | none => none
      | some nd => (neighborsCollect g visited consider rest).map (fun l => (nd, e.2.1) :: l)

def getNeighborsCore (g : RoadNetwork) (visited : VisitMap) (current : RoadPathedNode)
    (consider : Bool) : Option (List (Node × Nat)) :=
  neighborsCollect g visited consider (((g.edges.lookup current.node_self.id).map AList.entries).getD [])

def RoadDijkstra.get_neighbors (d : RoadDijkstra) (current : RoadPathedNode) (consider : Bool) :
    Option (List (Node × Nat)) :=
  getNeighborsCore d.graph d.visited_nodes current consider

/-- Extraction of a minimal-key entry from the modelled binary heap. -/
def popMin : List (Nat × RoadPathedNode) → Option ((Nat × RoadPathedNode) × List (Nat × RoadPathedNode))
  | [] => none
  | x :: xs =>
    match popMin xs with
    | none => some (x, [])
    | some (m, rest) => if x.1 ≤ m.1 then some (x, xs) else some (m, x :: rest)

/-- Pointwise update of the modelled `gscore` map. -/
def gUpdate (gs : Int → Option Nat) (k : Int) (v : Nat) : Int → Option Nat :=
  fun x => if x = k then some v else gs x

structure RelaxState where
  pq : List (Nat × RoadPathedNode)
  gscore : Int → Option Nat
  prev : PrevMap

/-- `heuristic.get(&id).unwrap_or(&0)`. -/
def hLookup (heur : Option HeurMap) (k : Int) : Nat :=
  match heur with
  | some hm => (hm.lookup k).getD 0
  | none => 0

/-- One relaxation of the neighbor loop of `RoadDijkstra::dijkstra`
(lines 399-421). -/
def relaxOne (heur : Option HeurMap) (cur : RoadPathedNode) (st : RelaxState) (nb : Node × Nat) :
    RelaxState :=
  let temp := cur.distance_from_start + nb.2
  let next := (st.gscore nb.1.id).getD u64MAX
  if temp < next then
    { pq := (temp + hLookup heur nb.1.id, RoadPathedNode.child nb.1 temp cur) :: st.pq
      gscore := gUpdate st.gscore nb.1.id temp
      prev := st.prev.insert nb.1.id cur.node_self.id }
  else st

def relaxAll (heur : Option HeurMap) (cur : RoadPathedNode) :
    List (Node × Nat) → RelaxState → RelaxState
  | [], st => st
  | nb :: rest, st => relaxAll heur cur rest (relaxOne heur cur st nb)

/-- Total cost of all directed edge entries of a graph; used to size the fuel
of the search loop. -/
def innerSum (inner : InnerEdges) : Nat :=
  (inner.entries.map (fun e => e.2.1)).sum

def innerSumOf (g : RoadNetwork) (u : Int) : Nat :=
  ((g.edges.lookup u).map innerSum).getD 0

def totalCost (g : RoadNetwork) : Nat :=
  (g.edges.keys.map (innerSumOf g)).sum

def dijkstraFuel (g : RoadNetwork) : Nat :=
  2 * (g.nodes.entries.length + 1) * (totalCost g + 2) + 4

/-- The `while` loop of `RoadDijkstra::dijkstra` (lines 374-423).  Fuel `0`
yields `none`, as does the `unwrap` panic inside `get_neighbors`; otherwise
the result is the returned optional record together with the final
predecessor map and visited map. -/
def dijkstraLoop (g : RoadNetwork) (ub maxSettled : Nat) (target_id : Int)
    (heur : Option HeurMap) (consider : Bool) :
    Nat → List (Nat × RoadPathedNode) → (Int → Option Nat) → VisitMap → PrevMap →
    Option (Option RoadPathedNode × PrevMap × VisitMap)
  | 0, _, _, _, _ => none
  | fuel + 1, pq, gscore, visited, prev =>
    match popMin pq with
    | none => some (none, prev, visited)
    | some ((_, cur), pqRest) =>
      let cost := cur.distance_from_start
      let idx := cur.node_self.id
      let visited2 := visited.insert idx cost
      if idx = target_id then some (some cur, prev, visited2)
      else if cost > ub ∨ visited2.entries.length > maxSettled then some (none, prev, visited2)
      else if cost > (gscore idx).getD u64MAX then
        dijkstraLoop g ub maxSettled target_id heur consider fuel pqRest gscore visited2 prev
      else
        match getNeighborsCore g visited2 cur consider with
        | none => none
        | some nbrs =>
          let st := relaxAll heur cur nbrs ⟨pqRest, gscore, prev⟩
          dijkstraLoop g ub maxSettled target_id heur consider fuel st.pq st.gscore visited2 st.prev

/-- `RoadDijkstra::dijkstra` (= the spec's `find_path`).  The outer `none`
is a panic (missing source, missing positive target, or a neighbor id
outside the node map) or fuel exhaustion; a `some` result carries the
returned pair together with the finder state whose `visited_nodes` was
mutated by the run. -/
def RoadDijkstra.dijkstra (d : RoadDijkstra) (source_id target_id : Int)
    (heur : Option HeurMap) (consider : Bool) :
    Option ((Option RoadPathedNode × PrevMap) × RoadDijkstra) :=
  match d.graph.nodes.lookup source_id with
  | none => none
  | some source =>
    if target_id > 0 ∧ (d.graph.nodes.lookup target_id).isNone then none
    else
      match dijkstraLoop d.graph d.cost_upper_bound d.max_settled_nodes target_id heur consider
          (dijkstraFuel d.graph) [(0, RoadPathedNode.root source 0)]
          (gUpdate (fun _ => none) source_id 0) ∅ ∅ with
      | none => none
      | some (res, prev, vis) => some ((res, prev), { d with visited_nodes := vis })

/-- The spec's name for `RoadDijkstra::dijkstra`. -/
def RoadDijkstra.find_path (d : RoadDijkstra) (source_id target_id : Int)
    (heur : Option HeurMap) (consider : Bool) :
    Option ((Option RoadPathedNode × PrevMap) × RoadDijkstra) :=
  d.dijkstra source_id target_id heur consider

/-- `RoadDijkstra::get_unvisted_node_id`. -/
def RoadDijkstra.get_unvisted_node_id (d : RoadDijkstra) (other_located_nodes : CountMap) :
    Option Int :=
  if other_located_nodes.entries.length = d.graph.nodes.entries.length then none
  else
    (d.graph.nodes.entries.find? (fun s =>
      !(((other_located_nodes.entries.filter (fun s2 => decide (0 < s2.2))).map
          Sigma.fst).contains s.1))).map Sigma.fst

/-- `RoadDijkstra::reset_all_flags`: bulk update of every arc flag of the
finder's private graph copy. -/
def RoadDijkstra.reset_all_flags (d : RoadDijkstra) (state : Bool) : RoadDijkstra :=
  { d with graph :=
    { d.graph with edges :=
        alistMapVals (fun _ inner => alistMapVals (fun _ cw => (cw.1, state)) inner) d.graph.edges } }

/-! ## Path predicates (specification side) -/

/-- A walk of the claims' sense: `HasPath g s v c k` holds when there is a
path from `s` to `v` of total edge cost `c` using `k` directed edges. -/
inductive HasPath (g : RoadNetwork) (s : Int) : Int → Nat → Nat → Prop where
  | refl : HasPath g s s 0 0
  | snoc {u v : Int} {c k w : Nat} {fl : Bool} :
      HasPath g s u c k → edgeEntry g u v = some (w, fl) → HasPath g s v (c + w) (k + 1)

/-- `d` is the minimum total edge cost over all paths from `s` to `t`. -/
def IsMinDist (g : RoadNetwork) (s t : Int) (d : Nat) : Prop :=
  (∃ k, HasPath g s t d k) ∧ ∀ c k, HasPath g s t c k → d ≤ c

/-- Well-formed node map: every key maps to a node carrying that id, as the
data model (`nodes: id → Node`) and the map reader guarantee. -/
def WFNodeMap (nm : NodeMap) : Prop :=
  ∀ k n, nm.lookup k = some n → n.id = k

/-- Directed entry of a bare edge map. -/
def lookup2 (e : EdgeMap) (u v : Int) : Option (Nat × Bool) :=
  (e.lookup u).bind (fun i => i.lookup v)

/-- `(u, v)` is a consecutive pair of the reference list `l`. -/
def adjPair (l : List Int) (u v : Int) : Prop :=
  (u, v) ∈ l.zip l.tail

/-- Invariant of the edge map built by `RoadNetwork::new` from a well-formed
node map: symmetry with equal costs, nonempty adjacency lists, and
provenance of every entry from a consecutive pair of some way. -/
structure EdgesOK (nm : NodeMap) (ways : List Way) (e : EdgeMap) : Prop where
  symm : ∀ u v c fl, lookup2 e u v = some (c, fl) → ∃ fl2, lookup2 e v u = some (c, fl2)
  prov : ∀ u v c fl, lookup2 e u v = some (c, fl) →
    fl = false ∧ ∃ w ∈ ways, ∃ nu nv, nm.lookup u = some nu ∧ nm.lookup v = some nv ∧
      (adjPair w.refs u v ∨ adjPair w.refs v u) ∧ c = segCostNat nu nv w.speed ∧
      1 ≤ w.speed * 5 / 18

/-- Every adjacency list of the edge map is nonempty. -/
def InnerNE (e : EdgeMap) : Prop :=
  ∀ u inner, e.lookup u = some inner → inner.entries ≠ []

/-- The facts about a built graph that the search needs: node records carry
their key as id, and every edge head is a surviving node. -/
structure GraphWF (g : RoadNetwork) : Prop where
  id_eq : ∀ k n, g.nodes.lookup k = some n → n.id = k
  edge_head : ∀ u v c fl, edgeEntry g u v = some (c, fl) → ∃ nv, g.nodes.lookup v = some nv

/-- The record chain of `r` is a valid path of `g` starting at the source
`s`, with coherent node records and accumulated distances. -/
def ChainValid (g : RoadNetwork) (s : Int) : RoadPathedNode → Prop
  | .root nd dist => nd.id = s ∧ dist = 0 ∧ g.nodes.lookup s = some nd
  | .child nd dist p => ChainValid g s p ∧ g.nodes.lookup nd.id = some nd ∧
      ∃ w fl, edgeEntry g p.node_self.id nd.id = some (w, fl) ∧
        dist = p.distance_from_start + w

/-- The node ids along a record chain, most recent first. -/
def chainIds : RoadPathedNode → List Int
  | .root nd _ => [nd.id]
  | .child nd _ p => nd.id :: chainIds p

/-- Potential of the `gscore` map: settled-size bookkeeping for the fuel
argument.  Each strict relaxation decreases it. -/
def potSum (g : RoadNetwork) (gscore : Int → Option Nat) : Nat :=
  (g.nodes.keys.map (fun v => min ((gscore v).getD (totalCost g + 1)) (totalCost g + 1))).sum

def loopMeasure (g : RoadNetwork) (pq : List (Nat × RoadPathedNode))
    (gscore : Int → Option Nat) : Nat :=
  pq.length + 2 * potSum g gscore

/-- The Dijkstra loop invariant (no heuristic, no arc-flag filtering). -/
structure LoopInv (g : RoadNetwork) (s t : Int) (pq : List (Nat × RoadPathedNode))
    (gscore : Int → Option Nat) (visited : VisitMap) : Prop where
  rec_key : ∀ e ∈ pq, e.1 = e.2.distance_from_start
  rec_valid : ∀ e ∈ pq, ChainValid g s e.2
  rec_nodup : ∀ e ∈ pq, (chainIds e.2).Nodup
  rec_anc_settled : ∀ e ∈ pq, ∀ a ∈ ancestorRecords e.2, a.node_self.id ∈ visited
  gscore_path : ∀ v c, gscore v = some c → ∃ k, HasPath g s v c k
  gscore_bound : ∀ v c, gscore v = some c → c ≤ totalCost g
  gscore_keys : ∀ v c, gscore v = some c → v ∈ g.nodes
  live : ∀ v, v ∉ visited → ∀ c, gscore v = some c →
    ∃ e ∈ pq, e.2.node_self.id = v ∧ e.1 = c
  key_ge : ∀ e ∈ pq, ∃ c, gscore e.2.node_self.id = some c ∧ c ≤ e.1
  settled_min : ∀ v, v ∈ visited → ∃ c, gscore v = some c ∧ IsMinDist g s v c
  settled_nodes : ∀ v, v ∈ visited → v ∈ g.nodes
  relaxed : ∀ v, v ∈ visited → ∀ u w fl, edgeEntry g v u = some (w, fl) →
    u ∈ visited ∨ ∃ cv cu, gscore v = some cv ∧ gscore u = some cu ∧ cu ≤ cv + w
  src_zero : gscore s = some 0
  t_not_settled : t ∉ visited

/-- The part of the loop invariant carried through the neighbor-relaxation
fold, stated against the visited map that already contains the node being
expanded. -/
structure RelaxInv (g : RoadNetwork) (s : Int) (visited2 : VisitMap) (st : RelaxState) : Prop where
  rec_key : ∀ e ∈ st.pq, e.1 = e.2.distance_from_start
  rec_valid : ∀ e ∈ st.pq, ChainValid g s e.2
  rec_nodup : ∀ e ∈ st.pq, (chainIds e.2).Nodup
  rec_anc : ∀ e ∈ st.pq, ∀ a ∈ ancestorRecords e.2, a.node_self.id ∈ visited2
  gs_path : ∀ v c, st.gscore v = some c → ∃ k, HasPath g s v c k
  gs_bound : ∀ v c, st.gscore v = some c → c ≤ totalCost g
  gs_keys : ∀ v c, st.gscore v = some c → v ∈ g.nodes
  live : ∀ v, v ∉ visited2 → ∀ c, st.gscore v = some c →
    ∃ e ∈ st.pq, e.2.node_self.id = v ∧ e.1 = c
  key_ge : ∀ e ∈ st.pq, ∃ c, st.gscore e.2.node_self.id = some c ∧ c ≤ e.1

/-! ## The finder as a state machine over an explicit world (frame claims) -/

inductive FinderOp where
  | findPath (source_id target_id : Int) (heur : Option HeurMap) (consider : Bool)
  | setCostUpperBound (b : Nat)
  | setMaxSettledNodes (m : Nat)
  | resetAllFlags (state : Bool)

/-- Apply one finder operation to the finder state.  A `find_path` run
updates the finder's `visited_nodes`; a panicking run leaves the modelled
state unchanged. -/
def applyFinderOp (d : RoadDijkstra) : FinderOp → RoadDijkstra
  | .findPath s t h c =>
    match d.dijkstra s t h c with
    | some (_, d2) => d2
    | none => d
  | .setCostUpperBound b => d.set_cost_upper_bound b
  | .setMaxSettledNodes m => d.set_max_settled_nodes m
  | .resetAllFlags b => d.reset_all_flags b

/-- A world holding the caller's `RoadNetwork` and the finder constructed
from it.  `RoadDijkstra::new` deep-copies the graph, so the finder's graph
is a separate field of the world. -/
structure RoutingWorld where
  network : RoadNetwork
  finder : RoadDijkstra

def RoutingWorld.init (net : RoadNetwork) : RoutingWorld :=
  ⟨net, RoadDijkstra.new net⟩

def RoutingWorld.applyOp (w : RoutingWorld) (op : FinderOp) : RoutingWorld :=
  { w with finder := applyFinderOp w.finder op }

def RoutingWorld.run (w : RoutingWorld) (ops : List FinderOp) : RoutingWorld :=
  ops.foldl RoutingWorld.applyOp w

/-! ## Spec-side cost formula (for the refinement claim C4) -/

/-- Modelled from the spec's words (§4.1): `cost = distance / speed_m_per_s`,
truncated to an integer, where `distance = sqrt(distSq) / 10^7` meters and
`speed_m_per_s = speed · 5/18`.  Computed exactly over the integers:
`⌊(√S / 10^7) / (5·speed/18)⌋ = ⌊√(S·18²) / (5·speed·10^7)⌋
= natSqrt (S·18²) / (5·speed·10^7)`. -/
def specSegCost (tail head : Node) (speed : Nat) : Nat :=
  natSqrt ((distSq tail head).toNat * 18 ^ 2) / (5 * speed * 10 ^ 7)

/-! ## Concrete fixtures -/

/-- Fixture of the spec's §8 "Concrete fixture": A(0,0), B(0,1000), one
residential way (30 km/h). -/
def nmAB : NodeMap := ((∅ : NodeMap).insert 1 ⟨1, 0, 0⟩).insert 2 ⟨2, 0, 1000⟩

def waysAB : List Way := [⟨100, 30, [1, 2]⟩]

/-- Fixture with one edge of cost 5 (distance ≈ 41.58 m at 30 km/h). -/
def nmFar : NodeMap := ((∅ : NodeMap).insert 1 ⟨1, 0, 0⟩).insert 2 ⟨2, 0, 5800⟩

def waysFar : List Way := [⟨100, 30, [1, 2]⟩]

/-- Fixture for the cost-formula comparison: one service way (5 km/h),
distance ≈ 3.58 m. -/
def nmSvc : NodeMap := ((∅ : NodeMap).insert 1 ⟨1, 0, 0⟩).insert 2 ⟨2, 0, 500⟩

def waysSvc : List Way := [⟨100, 5, [1, 2]⟩]

/-- Chain of six nodes 1000 fixed-point units apart on one residential way;
every edge cost truncates to 0 while the straight-line heuristic to the far
end does not. -/
def nmChain : NodeMap :=
  (((((∅ : NodeMap).insert 1 ⟨1, 0, 0⟩).insert 2 ⟨2, 0, 1000⟩).insert 3
    ⟨3, 0, 2000⟩).insert 4 ⟨4, 0, 3000⟩ |>.insert 5 ⟨5, 0, 4000⟩).insert 6 ⟨6, 0, 5000⟩

def waysChain : List Way := [⟨200, 30, [1, 2, 3, 4, 5, 6]⟩]

/-- A visitation map recording both fixture nodes with count `0`. -/
def cmZero : CountMap := ((∅ : CountMap).insert 1 0).insert 2 0

/-- A visitation map recording only node 1, with count `0`. -/
def cmOne : CountMap := (∅ : CountMap).insert 1 0

/-- The graph built from the two-node fixture. -/
def gAB : RoadNetwork := (build_graph nmAB waysAB).get (by decide)

/-- The graph built from the cost-5-edge fixture. -/
def gFar : RoadNetwork := (build_graph nmFar waysFar).get (by decide)

/-- The graph built from the six-node chain fixture. -/
def gChain : RoadNetwork := (build_graph nmChain waysChain).get (by decide)

/-- The heuristic map of the chain fixture for target node 6. -/
def hmChain : HeurMap := (a_star_heuristic gChain 6).get (by decide)

/-! ## Theorems -/

theorem sqrtFuel_eq_sqrt (fuel n : Nat) (h : n ≤ fuel) : sqrtFuel fuel n = Nat.sqrt n := by
  induction fuel generalizing n with
  | zero =>
    have hn : n = 0 := Nat.le_zero.mp h
    simp [sqrtFuel, hn]
  | succ fuel ih =>
    by_cases hn : n = 0
    · simp [sqrtFuel, hn]
    · have hq : n / 4 ≤ fuel := by
        have h1 : n / 4 < n := Nat.div_lt_self (Nat.pos_of_ne_zero hn) (by norm_num)
        omega
      have ihq := ih (n / 4) hq
      have hm1 : Nat.sqrt (n / 4) * Nat.sqrt (n / 4) ≤ n / 4 := Nat.sqrt_le (n / 4)
      have hm2 : n / 4 < (Nat.sqrt (n / 4) + 1) * (Nat.sqrt (n / 4) + 1) :=
        Nat.lt_succ_sqrt (n / 4)
      set m := Nat.sqrt (n / 4) with hm
      have hlow : 2 * m * (2 * m) ≤ n := by
        have h4 : 4 * (n / 4) ≤ n := Nat.mul_div_le n 4
        nlinarith
      have hhigh : n < (2 * m + 2) * (2 * m + 2) := by
        have h4 : n < 4 * (n / 4) + 4 := by omega
        nlinarith
      simp only [sqrtFuel, hn, if_false, ihq, ← hm]
      by_cases hc : (2 * m + 1) * (2 * m + 1) ≤ n
      · rw [if_pos hc]
        have hle : 2 * m + 1 ≤ Nat.sqrt n := Nat.le_sqrt.mpr (by nlinarith)
        have hlt : Nat.sqrt n < 2 * m + 2 := by
          have := Nat.sqrt_lt.mpr hhigh
          omega
        omega
      · rw [if_neg hc]
        have hle : 2 * m ≤ Nat.sqrt n := Nat.le_sqrt.mpr (by nlinarith)
        have hlt : Nat.sqrt n < 2 * m + 1 := Nat.sqrt_lt.mpr (by omega)
        omega

theorem natSqrt_eq_sqrt (n : Nat) : natSqrt n = Nat.sqrt n :=
  sqrtFuel_eq_sqrt n n le_rfl

/-! ### Builder invariants -/

theorem getD_empty_lookup (o : Option InnerEdges) (v : Int) :
    ((o.getD ∅).lookup v) = o.bind (fun i => i.lookup v) := by
  cases o <;> simp [AList.lookup_empty]

theorem insert_entries_ne {β : Type} (s : AList (fun _ : Int => β)) (a : Int) (b : β) :
    (s.insert a b).entries ≠ [] := by
  rw [AList.insert_entries]
  exact List.cons_ne_nil _ _

theorem insertEdgePair_def (e : EdgeMap) (a b hid : Int) (c : Nat) :
    insertEdgePair e a b hid c =
      (e.insert a (((e.lookup a).getD ∅).insert b (c, false))).insert hid
        ((((e.insert a (((e.lookup a).getD ∅).insert b (c, false))).lookup hid).getD ∅).insert a
          (c, false)) := rfl

theorem lookup1_insertEdgePair (e : EdgeMap) (a b hid : Int) (c : Nat) (u : Int) (hu1 : u ≠ hid)
    (hu2 : u ≠ a) : (insertEdgePair e a b hid c).lookup u = e.lookup u := by
  rw [insertEdgePair_def, AList.lookup_insert_ne hu1, AList.lookup_insert_ne hu2]

theorem innerNE_insertEdgePair {e : EdgeMap} (h : InnerNE e) (a b hid : Int) (c : Nat) :
    InnerNE (insertEdgePair e a b hid c) := by
  intro u inner hl
  by_cases hu1 : u = hid
  · subst hu1
    rw [insertEdgePair_def, AList.lookup_insert] at hl
    cases hl
    exact insert_entries_ne _ _ _
  · by_cases hu2 : u = a
    · subst hu2
      rw [insertEdgePair_def, AList.lookup_insert_ne hu1, AList.lookup_insert] at hl
      cases hl
      exact insert_entries_ne _ _ _
    · rw [lookup1_insertEdgePair e a b hid c u hu1 hu2] at hl
      exact h u inner hl

theorem lookup2_insertEdgePair_hit1 (e : EdgeMap) (a b : Int) (c : Nat) :
    lookup2 (insertEdgePair e a b b c) a b = some (c, false) := by
  rw [insertEdgePair_def]
  unfold lookup2
  by_cases hab : a = b
  · subst hab
    rw [AList.lookup_insert]
    simp only [Option.some_bind]
    rw [AList.lookup_insert]
  · rw [AList.lookup_insert_ne hab, AList.lookup_insert]
    simp only [Option.some_bind]
    rw [AList.lookup_insert]

theorem lookup2_insertEdgePair_hit2 (e : EdgeMap) (a b : Int) (c : Nat) :
    lookup2 (insertEdgePair e a b b c) b a = some (c, false) := by
  rw [insertEdgePair_def]
  unfold lookup2
  rw [AList.lookup_insert]
  simp only [Option.some_bind]
  rw [AList.lookup_insert]

theorem lookup2_insertEdgePair_miss (e : EdgeMap) (a b : Int) (c : Nat) (u v : Int)
    (h1 : ¬(u = a ∧ v = b)) (h2 : ¬(u = b ∧ v = a)) :
    lookup2 (insertEdgePair e a b b c) u v = lookup2 e u v := by
  rw [insertEdgePair_def]
  unfold lookup2
  by_cases hub : u = b
  · subst hub
    have hva : v ≠ a := fun hv => h2 ⟨rfl, hv⟩
    rw [AList.lookup_insert]
    simp only [Option.some_bind]
    rw [AList.lookup_insert_ne hva, getD_empty_lookup]
    by_cases hua : u = a
    · subst hua
      have hvb : v ≠ u := fun hv => h1 ⟨rfl, hv⟩
      rw [AList.lookup_insert]
      simp only [Option.some_bind]
      rw [AList.lookup_insert_ne hvb, getD_empty_lookup]
    · rw [AList.lookup_insert_ne hua]
  · rw [AList.lookup_insert_ne hub]
    by_cases hua : u = a
    · subst hua
      have hvb : v ≠ b := fun hv => h1 ⟨rfl, hv⟩
      rw [AList.lookup_insert]
      simp only [Option.some_bind]
      rw [AList.lookup_insert_ne hvb, getD_empty_lookup]
    · rw [AList.lookup_insert_ne hua]

theorem distSq_comm (x y : Node) : distSq x y = distSq y x := by
  unfold distSq
  ring

theorem distFloor_comm (x y : Node) : distFloor x y = distFloor y x := by
  unfold distFloor
  rw [distSq_comm]

theorem segCostNat_comm (x y : Node) (sp : Nat) : segCostNat x y sp = segCostNat y x sp := by
  unfold segCostNat
  rw [distFloor_comm]

theorem adjPair_cons {l : List Int} {u v : Int} (x : Int) (h : adjPair l u v) :
    adjPair (x :: l) u v := by
  unfold adjPair at h ⊢
  cases l with
  | nil => simp [List.zip] at h
  | cons y t => exact List.mem_cons_of_mem _ h

theorem edgesOK_empty (nm : NodeMap) (ways : List Way) : EdgesOK nm ways ∅ := by
  constructor <;> intro u v c fl hl <;> simp [lookup2, AList.lookup_empty] at hl

theorem innerNE_empty : InnerNE ∅ := by
  intro u inner hl
  simp [AList.lookup_empty] at hl

theorem edgesOK_insertEdgePair {nm : NodeMap} {ways : List Way} {e : EdgeMap} {w : Way}
    (hok : EdgesOK nm ways e) (hw : w ∈ ways) (a b : Int) (na nb : Node)
    (ha : nm.lookup a = some na) (hb : nm.lookup b = some nb) (hadj : adjPair w.refs a b)
    (hq : 1 ≤ w.speed * 5 / 18) :
    EdgesOK nm ways (insertEdgePair e a b b (segCostNat na nb w.speed)) := by
  have key : ∀ u v c2 fl2,
      lookup2 (insertEdgePair e a b b (segCostNat na nb w.speed)) u v = some (c2, fl2) →
      ((u = a ∧ v = b) ∨ (u = b ∧ v = a)) ∧ c2 = segCostNat na nb w.speed ∧ fl2 = false ∨
        ¬(u = a ∧ v = b) ∧ ¬(u = b ∧ v = a) ∧ lookup2 e u v = some (c2, fl2) := by
    intro u v c2 fl2 hl
    by_cases hc1 : u = a ∧ v = b
    · left
      refine ⟨Or.inl hc1, ?_⟩
      rw [hc1.1, hc1.2, lookup2_insertEdgePair_hit1] at hl
      simp only [Option.some.injEq, Prod.mk.injEq] at hl
      exact ⟨hl.1.symm, hl.2.symm⟩
    · by_cases hc2 : u = b ∧ v = a
      · left
        refine ⟨Or.inr hc2, ?_⟩
        rw [hc2.1, hc2.2, lookup2_insertEdgePair_hit2] at hl
        simp only [Option.some.injEq, Prod.mk.injEq] at hl
        exact ⟨hl.1.symm, hl.2.symm⟩
      · right
        rw [lookup2_insertEdgePair_miss e a b _ u v hc1 hc2] at hl
        exact ⟨hc1, hc2, hl⟩
  constructor
  · intro u v c2 fl2 hl
    rcases key u v c2 fl2 hl with ⟨hcond, hc, _⟩ | ⟨hn1, hn2, hold⟩
    · rcases hcond with ⟨hu, hv⟩ | ⟨hu, hv⟩
      · refine ⟨false, ?_⟩
        rw [hu, hv, hc, lookup2_insertEdgePair_hit2]
      · refine ⟨false, ?_⟩
        rw [hu, hv, hc, lookup2_insertEdgePair_hit1]
    · obtain ⟨fl3, h3⟩ := hok.symm u v c2 fl2 hold
      refine ⟨fl3, ?_⟩
      rw [lookup2_insertEdgePair_miss e a b _ v u (fun hc => hn2 ⟨hc.2, hc.1⟩)
        (fun hc => hn1 ⟨hc.2, hc.1⟩)]
      exact h3
  · intro u v c2 fl2 hl
    rcases key u v c2 fl2 hl with ⟨hcond, hc, hfl⟩ | ⟨_, _, hold⟩
    · refine ⟨hfl, ?_⟩
      rcases hcond with ⟨hu, hv⟩ | ⟨hu, hv⟩
      · rw [hu, hv]
        exact ⟨w, hw, na, nb, ha, hb, Or.inl hadj, hc, hq⟩
      · rw [hu, hv]
        exact ⟨w, hw, nb, na, hb, ha, Or.inr hadj,
          hc.trans (segCostNat_comm na nb w.speed), hq⟩
    · exact hok.prov u v c2 fl2 hold

theorem wayFold_edgesOK {nm : NodeMap} {ways : List Way} {w : Way} (hWF : WFNodeMap nm)
    (hw : w ∈ ways) :
    ∀ (refs2 : List Int) (e : EdgeMap) (cache : Option Node), EdgesOK nm ways e →
      (∀ u v, adjPair refs2 u v → adjPair w.refs u v) →
      (∀ hnode, cache = some hnode → nm.lookup (refs2.headI) = some hnode) →
      ∀ e2, wayFold nm w.speed (refPairs refs2) (e, cache) = some e2 → EdgesOK nm ways e2 := by
  intro refs2
  induction refs2 with
  | nil =>
    intro e cache hok _ _ e2 hfold
    cases hfold
    exact hok
  | cons aa t ih =>
    intro e cache hok hmono hcache e2 hfold
    cases t with
    | nil =>
      cases hfold
      exact hok
    | cons bb rest =>
      have hpairs : refPairs (aa :: bb :: rest) = (aa, bb) :: refPairs (bb :: rest) := rfl
      rw [hpairs] at hfold
      have htail : ∀ tl, (match cache with
          | some cached => some cached
          | none => nm.lookup aa) = some tl → nm.lookup aa = some tl := by
        intro tl htl
        cases cache with
        | some cached =>
          have := hcache cached rfl
          simp only [List.headI] at this
          cases htl
          exact this
        | none => exact htl
      unfold wayFold at hfold
      unfold wayStep at hfold
      simp only at hfold
      cases hc1 : (match cache with
          | some cached => some cached
          | none => nm.lookup aa) with
      | none =>
        rw [hc1] at hfold
        cases hc2 : nm.lookup bb with
        | none =>
          rw [hc2] at hfold
          simp only [] at hfold
          exact ih e none hok (fun u v h => hmono u v (adjPair_cons aa h))
            (fun hn h => by cases h) e2 hfold
        | some head =>
          rw [hc2] at hfold
          simp only [] at hfold
          exact ih e none hok (fun u v h => hmono u v (adjPair_cons aa h))
            (fun hn h => by cases h) e2 hfold
      | some tl =>
        rw [hc1] at hfold
        cases hc2 : nm.lookup bb with
        | none =>
          rw [hc2] at hfold
          exact ih e none hok (fun u v h => hmono u v (adjPair_cons aa h))
            (fun hn h => by cases h) e2 hfold
        | some head =>
          rw [hc2] at hfold
          simp only [] at hfold
          by_cases hz : w.speed * 5 / 18 = 0
          · rw [if_pos hz] at hfold
            cases hfold
          · rw [if_neg hz] at hfold
            have htl := htail tl hc1
            have hid : head.id = bb := hWF bb head hc2
            rw [hid] at hfold
            have hadj : adjPair w.refs aa bb :=
              hmono aa bb (by unfold adjPair; exact List.mem_cons_self _ _)
            have hok2 : EdgesOK nm ways (insertEdgePair e aa bb bb (segCostNat tl head w.speed)) :=
              edgesOK_insertEdgePair hok hw aa bb tl head htl hc2 hadj
                (Nat.one_le_iff_ne_zero.mpr hz)
            exact ih _ (some head) hok2 (fun u v h => hmono u v (adjPair_cons aa h))
              (fun hn h => by cases h; exact hc2) e2 hfold

theorem wayFold_innerNE (nm : NodeMap) (speed : Nat) :
    ∀ (prs : List (Int × Int)) (e : EdgeMap) (cache : Option Node), InnerNE e →
      ∀ e2, wayFold nm speed prs (e, cache) = some e2 → InnerNE e2 := by
  intro prs
  induction prs with
  | nil =>
    intro e cache hok e2 hfold
    cases hfold
    exact hok
  | cons pr rest ih =>
    intro e cache hok e2 hfold
    unfold wayFold at hfold
    unfold wayStep at hfold
    simp only at hfold
    cases hc1 : (match cache with
        | some cached => some cached
        | none => nm.lookup pr.1) with
    | none =>
      rw [hc1] at hfold
      cases hc2 : nm.lookup pr.2 with
      | none =>
        rw [hc2] at hfold
        simp only [] at hfold
        exact ih e none hok e2 hfold
      | some head =>
        rw [hc2] at hfold
        simp only [] at hfold
        exact ih e none hok e2 hfold
    | some tl =>
      rw [hc1] at hfold
      cases hc2 : nm.lookup pr.2 with
      | none =>
        rw [hc2] at hfold
        exact ih e none hok e2 hfold
      | some head =>
        rw [hc2] at hfold
        simp only [] at hfold
        by_cases hz : speed * 5 / 18 = 0
        · rw [if_pos hz] at hfold
          cases hfold
        · rw [if_neg hz] at hfold
          exact ih _ (some head) (innerNE_insertEdgePair hok _ _ _ _) e2 hfold

theorem processWays_edgesOK {nm : NodeMap} {ways : List Way} (hWF : WFNodeMap nm) :
    ∀ (rest : List Way) (e : EdgeMap), EdgesOK nm ways e → (∀ w ∈ rest, w ∈ ways) →
      ∀ e2, processWays nm rest e = some e2 → EdgesOK nm ways e2 := by
  intro rest
  induction rest with
  | nil =>
    intro e hok _ e2 hp
    cases hp
    exact hok
  | cons w rs ih =>
    intro e hok hsub e2 hp
    unfold processWays at hp
    cases hpw : processWay nm e w with
    | none => rw [hpw] at hp; cases hp
    | some e3 =>
      rw [hpw] at hp
      have hok3 : EdgesOK nm ways e3 := by
        unfold processWay at hpw
        cases hrefs : w.refs with
        | nil => rw [hrefs] at hpw; cases hpw
        | cons r rs2 =>
          rw [hrefs] at hpw
          exact wayFold_edgesOK hWF (hsub w (List.mem_cons_self _ _)) (r :: rs2) e none hok
            (fun u v h => by rw [hrefs]; exact h) (fun hn h => by cases h) e3 hpw
      exact ih e3 hok3 (fun x hx => hsub x (List.mem_cons_of_mem _ hx)) e2 hp

theorem processWays_innerNE (nm : NodeMap) :
    ∀ (rest : List Way) (e : EdgeMap), InnerNE e →
      ∀ e2, processWays nm rest e = some e2 → InnerNE e2 := by
  intro rest
  induction rest with
  | nil =>
    intro e hok e2 hp
    cases hp
    exact hok
  | cons w rs ih =>
    intro e hok e2 hp
    unfold processWays at hp
    cases hpw : processWay nm e w with
    | none => rw [hpw] at hp; cases hp
    | some e3 =>
      rw [hpw] at hp
      have hok3 : InnerNE e3 := by
        unfold processWay at hpw
        cases hrefs : w.refs with
        | nil => rw [hrefs] at hpw; cases hpw
        | cons r rs2 =>
          rw [hrefs] at hpw
          exact wayFold_innerNE nm w.speed _ e none hok e3 hpw
      exact ih e3 hok3 e2 hp

theorem new_some_elim {nm : NodeMap} {ways : List Way} {g : RoadNetwork}
    (h : RoadNetwork.new nm ways = some g) :
    processWays nm ways ∅ = some g.edges ∧ g.nodes = filterNodes nm g.edges ∧
      g.raw_ways = ways ∧ g.raw_nodes = (filterNodes nm g.edges).keys := by
  unfold RoadNetwork.new at h
  cases hp : processWays nm ways ∅ with
  | none =>
    rw [hp] at h
    simp only [] at h
    exact Option.noConfusion h
  | some e =>
    rw [hp] at h
    simp only [] at h
    cases h
    exact ⟨rfl, rfl, rfl, rfl⟩

theorem filterNodes_lookup {nm : NodeMap} {e : EdgeMap} {k : Int} {n : Node} :
    (filterNodes nm e).lookup k = some n ↔ nm.lookup k = some n ∧ (e.lookup k).isSome := by
  constructor
  · intro h
    have hmem : (⟨k, n⟩ : Sigma fun _ : Int => Node) ∈ (filterNodes nm e).entries :=
      AList.mem_lookup_iff.mp (Option.mem_def.mpr h)
    have := List.mem_filter.mp hmem
    exact ⟨Option.mem_def.mp (AList.mem_lookup_iff.mpr this.1), by simpa using this.2⟩
  · intro ⟨h1, h2⟩
    have hmem : (⟨k, n⟩ : Sigma fun _ : Int => Node) ∈ nm.entries :=
      AList.mem_lookup_iff.mp (Option.mem_def.mpr h1)
    exact Option.mem_def.mp (AList.mem_lookup_iff.mpr
      (List.mem_filter.mpr ⟨hmem, by simpa using h2⟩))

theorem filterNodes_mem {nm : NodeMap} {e : EdgeMap} {k : Int} :
    k ∈ filterNodes nm e ↔ k ∈ nm ∧ (e.lookup k).isSome := by
  constructor
  · intro h
    obtain ⟨n, hn⟩ := Option.isSome_iff_exists.mp (AList.lookup_isSome.mpr h)
    have := filterNodes_lookup.mp hn
    exact ⟨AList.lookup_isSome.mp (by rw [this.1]; rfl), this.2⟩
  · intro ⟨h1, h2⟩
    obtain ⟨n, hn⟩ := Option.isSome_iff_exists.mp (AList.lookup_isSome.mpr h1)
    exact AList.lookup_isSome.mp (by rw [filterNodes_lookup.mpr ⟨hn, h2⟩]; rfl)

/-- A decidable sufficient test for `WFNodeMap`, for concrete fixtures. -/
theorem wfNodeMap_of_all {nm : NodeMap} (h : ∀ s ∈ nm.entries, (Sigma.snd s).id = s.1) :
    WFNodeMap nm := by
  intro k n hl
  exact h ⟨k, n⟩ (AList.mem_lookup_iff.mp (Option.mem_def.mpr hl))

theorem build_edgesOK {nm : NodeMap} {ways : List Way} {g : RoadNetwork}
    (hg : RoadNetwork.new nm ways = some g) (hwf : WFNodeMap nm) : EdgesOK nm ways g.edges := by
  obtain ⟨hp, _, _, _⟩ := new_some_elim hg
  exact processWays_edgesOK hwf ways ∅ (edgesOK_empty nm ways) (fun w hw => hw) g.edges hp

/-- C5: for every graph built from a well-formed node map, `edges[u][v]`
exists iff `edges[v][u]` exists, and when both exist the costs coincide. -/
theorem claim_C5_edge_symmetry (nm : NodeMap) (ways : List Way) (g : RoadNetwork)
    (hg : build_graph nm ways = some g) (hwf : WFNodeMap nm) (u v : Int) :
    ((edgeEntry g u v).isSome ↔ (edgeEntry g v u).isSome) ∧
      (∀ c fl c2 fl2, edgeEntry g u v = some (c, fl) → edgeEntry g v u = some (c2, fl2) →
        c = c2) := by
  have hok : EdgesOK nm ways g.edges := build_edgesOK hg hwf
  constructor
  · constructor
    · intro h1
      obtain ⟨⟨c, fl⟩, hc⟩ := Option.isSome_iff_exists.mp h1
      obtain ⟨fl2, h2⟩ := hok.symm u v c fl hc
      rw [show edgeEntry g v u = lookup2 g.edges v u from rfl, h2]
      rfl
    · intro h1
      obtain ⟨⟨c, fl⟩, hc⟩ := Option.isSome_iff_exists.mp h1
      obtain ⟨fl2, h2⟩ := hok.symm v u c fl hc
      rw [show edgeEntry g u v = lookup2 g.edges u v from rfl, h2]
      rfl
  · intro c fl c2 fl2 h1 h2
    obtain ⟨fl3, h3⟩ := hok.symm u v c fl h1
    rw [show edgeEntry g v u = lookup2 g.edges v u from rfl, h3] at h2
    simp only [Option.some.injEq, Prod.mk.injEq] at h2
    exact h2.1

theorem claim_C5_edge_symmetry_witness :
    ∃ g, build_graph nmAB waysAB = some g ∧
      (((edgeEntry g 1 2).isSome ↔ (edgeEntry g 2 1).isSome) ∧
        ∀ c fl c2 fl2, edgeEntry g 1 2 = some (c, fl) → edgeEntry g 2 1 = some (c2, fl2) →
          c = c2) := by
  cases hg : build_graph nmAB waysAB with
  | none =>
    have hs : (build_graph nmAB waysAB).isSome = true := by decide
    rw [hg] at hs
    cases hs
  | some g =>
    exact ⟨g, rfl, claim_C5_edge_symmetry nmAB waysAB g hg (wfNodeMap_of_all (by decide)) 1 2⟩

/-- C6: in a built graph every surviving node id has a nonempty adjacency
list in the edge map, and `raw_nodes` is exactly the key set of `nodes`. -/
theorem claim_C6_pruning (nm : NodeMap) (ways : List Way) (g : RoadNetwork)
    (hg : build_graph nm ways = some g) :
    (∀ nid, nid ∈ g.nodes → ∃ inner, g.edges.lookup nid = some inner ∧ inner.entries ≠ []) ∧
      (∀ nid, nid ∈ g.raw_nodes ↔ nid ∈ g.nodes) := by
  obtain ⟨hp, hnodes, _, hraw⟩ := new_some_elim hg
  have hne : InnerNE g.edges := processWays_innerNE nm ways ∅ innerNE_empty g.edges hp
  constructor
  · intro nid hid
    rw [hnodes] at hid
    obtain ⟨_, hsome⟩ := filterNodes_mem.mp hid
    obtain ⟨inner, hinner⟩ := Option.isSome_iff_exists.mp hsome
    exact ⟨inner, hinner, hne nid inner hinner⟩
  · intro nid
    rw [hraw, hnodes]
    exact Iff.symm AList.mem_keys

theorem claim_C6_pruning_witness :
    ∃ g, build_graph nmAB waysAB = some g ∧
      ((∀ nid, nid ∈ g.nodes → ∃ inner, g.edges.lookup nid = some inner ∧ inner.entries ≠ []) ∧
        ∀ nid, nid ∈ g.raw_nodes ↔ nid ∈ g.nodes) := by
  cases hg : build_graph nmAB waysAB with
  | none =>
    have hs : (build_graph nmAB waysAB).isSome = true := by decide
    rw [hg] at hs
    cases hs
  | some g =>
    exact ⟨g, rfl, claim_C6_pruning nmAB waysAB g hg⟩

/-- C4 amended: for a well-formed node map, every cost stored by
`build_graph` equals `segCostNat` — the *separately truncated* distance
divided by the *separately truncated* speed — for the endpoint nodes of a
consecutive reference pair of some way (the last such way to write the pair;
its speed makes the truncated m/s positive).  The claim's single-truncation
quotient `specSegCost` differs (see the counterexample). -/
theorem claim_C4_cost_formula (nm : NodeMap) (ways : List Way) (g : RoadNetwork)
    (hg : build_graph nm ways = some g) (hwf : WFNodeMap nm) (u v : Int) (c : Nat) (fl : Bool)
    (he : edgeEntry g u v = some (c, fl)) :
    fl = false ∧ ∃ w ∈ ways, ∃ nu nv, nm.lookup u = some nu ∧ nm.lookup v = some nv ∧
      (adjPair w.refs u v ∨ adjPair w.refs v u) ∧ c = segCostNat nu nv w.speed ∧
      1 ≤ w.speed * 5 / 18 :=
  (build_edgesOK hg hwf).prov u v c fl he

theorem claim_C4_cost_formula_witness :
    ∃ g c fl, build_graph nmSvc waysSvc = some g ∧ edgeEntry g 1 2 = some (c, fl) ∧
      fl = false ∧ ∃ w ∈ waysSvc, ∃ nu nv, nmSvc.lookup 1 = some nu ∧
        nmSvc.lookup 2 = some nv ∧ (adjPair w.refs 1 2 ∨ adjPair w.refs 2 1) ∧
        c = segCostNat nu nv w.speed ∧ 1 ≤ w.speed * 5 / 18 := by
  cases hg : build_graph nmSvc waysSvc with
  | none =>
    have hs : (build_graph nmSvc waysSvc).isSome = true := by decide
    rw [hg] at hs
    cases hs
  | some g =>
    cases he : edgeEntry g 1 2 with
    | none =>
      have hs : ((build_graph nmSvc waysSvc).bind (fun g2 => edgeEntry g2 1 2)).isSome =
          true := by decide
      rw [hg] at hs
      simp only [Option.some_bind] at hs
      rw [he] at hs
      exact Bool.noConfusion hs
    | some p =>
      exact ⟨g, p.1, p.2, rfl, by rw [he], claim_C4_cost_formula nmSvc waysSvc g hg
        (wfNodeMap_of_all (by decide)) 1 2 p.1 p.2 (by rw [he])⟩

theorem run_network_eq (w : RoutingWorld) (ops : List FinderOp) :
    (w.run ops).network = w.network := by
  induction ops generalizing w with
  | nil => rfl
  | cons op rest ih => exact (ih (w.applyOp op)).trans rfl

/-- C10: constructing a finder from a network and running any sequence of
finder operations (`find_path`, bound setters, `reset_all_flags`) leaves the
caller's `RoadNetwork` unchanged, edge costs and arc flags included: the
constructor clones the graph, so the finder mutates only its private copy,
modelled here by the world's separate `finder` field. -/
theorem claim_C10_finder_ops_leave_network_unchanged (net : RoadNetwork) (ops : List FinderOp) :
    ((RoutingWorld.init net).run ops).network = net :=
  run_network_eq (RoutingWorld.init net) ops

/-- C8: a way with an *empty* reference list makes `RoadNetwork::new` panic
(the `usize` expression `way.refs.len() - 1` underflows; in release mode the
wrapped loop bound makes `way.refs[0]` go out of bounds), modelled as the
`none` result: the construction fails instead of contributing nothing. -/
theorem claim_C8_empty_way_panics :
    RoadNetwork.new nmAB [⟨7, 30, []⟩] = none ∧
    RoadNetwork.new nmAB (⟨7, 30, []⟩ :: waysAB) = none := by
  constructor <;> rfl

/-- C7 counterexample: on the spec's concrete fixture the returned path is
`[B, A]` — target first, source last (reverse traversal order of
`get_path`) — not `[A, B]` as the claim states. -/
theorem claim_C7_counterexample :
    ((build_graph nmAB waysAB).bind
        (fun g => (RoadDijkstra.new g).find_path 1 2 none false)).map
      (fun p => p.1.1.map (fun r => r.get_path.1)) =
      some (some [⟨2, 0, 1000⟩, ⟨1, 0, 0⟩]) ∧
    ([⟨2, 0, 1000⟩, ⟨1, 0, 0⟩] : List Node) ≠ [⟨1, 0, 0⟩, ⟨2, 0, 1000⟩] := by
  exact ⟨by decide, by decide⟩

/-- C7 amended: on the concrete fixture, `build_graph` produces one symmetric
edge whose cost is the (doubly) truncated quotient — which here coincides
with the spec's single-truncation value, both being 0 — and `find_path(A,B)`
with no heuristic and no arc flags returns the path `[B, A]` (target first,
then source: `get_path` accumulates in reverse traversal order) with total
cost equal to that edge cost. -/
theorem claim_C7_fixture_path :
    segCostNat ⟨1, 0, 0⟩ ⟨2, 0, 1000⟩ 30 = 0 ∧
    specSegCost ⟨1, 0, 0⟩ ⟨2, 0, 1000⟩ 30 = 0 ∧
    (build_graph nmAB waysAB).map (fun g => (edgeEntry g 1 2, edgeEntry g 2 1)) =
      some (some (0, false), some (0, false)) ∧
    ((build_graph nmAB waysAB).bind
        (fun g => (RoadDijkstra.new g).find_path 1 2 none false)).map
      (fun p => p.1.1.map RoadPathedNode.get_path) =
      some (some ([⟨2, 0, 1000⟩, ⟨1, 0, 0⟩], 0)) := by
  exact ⟨by decide, by decide, by decide, by decide⟩

/-- C4 counterexample: on the service-way fixture (speed 5 km/h, distance
≈ 3.58 m) the stored cost is `⌊3.58⌋ / ⌊1.388⌋ = 3`, while the claim's
formula — the *quotient* distance/(speed·5/18) truncated once — gives
`⌊3.58 / 1.388⌋ = 2`: the code truncates the distance and the speed
separately before an integer division. -/
theorem claim_C4_counterexample :
    (build_graph nmSvc waysSvc).map (fun g => edgeEntry g 1 2) = some (some (3, false)) ∧
    segCostNat ⟨1, 0, 0⟩ ⟨2, 0, 500⟩ 5 = 3 ∧
    specSegCost ⟨1, 0, 0⟩ ⟨2, 0, 500⟩ 5 = 2 ∧
    (3 : Nat) ≠ 2 := by
  exact ⟨by decide, by decide, by decide, by decide⟩

theorem build_gAB : build_graph nmAB waysAB = some gAB :=
  (Option.some_get _).symm

theorem build_gChain : build_graph nmChain waysChain = some gChain :=
  (Option.some_get _).symm

theorem heur_gChain : a_star_heuristic gChain 6 = some hmChain :=
  (Option.some_get _).symm

/-! ### Heuristic bounds (C3) -/

/-- Integer Minkowski inequality for truncated square roots of sums of two
squares: the root of the squared length of a vector sum exceeds the sum of
the roots by at most 1. -/
theorem sqrt_sq_add_sq_triangle (A1 B1 A2 B2 : Int) :
    Nat.sqrt ((A1 + A2) ^ 2 + (B1 + B2) ^ 2).toNat ≤
      Nat.sqrt (A1 ^ 2 + B1 ^ 2).toNat + Nat.sqrt (A2 ^ 2 + B2 ^ 2).toNat + 1 := by
  set S0 := ((A1 + A2) ^ 2 + (B1 + B2) ^ 2).toNat with hS0
  set S1 := (A1 ^ 2 + B1 ^ 2).toNat with hS1
  set S2 := (A2 ^ 2 + B2 ^ 2).toNat with hS2
  set sa := Nat.sqrt S1 with hsa
  set sb := Nat.sqrt S2 with hsb
  have e0 : (S0 : Int) = (A1 + A2) ^ 2 + (B1 + B2) ^ 2 := Int.toNat_of_nonneg (by positivity)
  have e1 : (S1 : Int) = A1 ^ 2 + B1 ^ 2 := Int.toNat_of_nonneg (by positivity)
  have e2 : (S2 : Int) = A2 ^ 2 + B2 ^ 2 := Int.toNat_of_nonneg (by positivity)
  have hlt1 : S1 < (sa + 1) * (sa + 1) := Nat.lt_succ_sqrt S1
  have hlt2 : S2 < (sb + 1) * (sb + 1) := Nat.lt_succ_sqrt S2
  have hi1 : (A1 ^ 2 + B1 ^ 2 : Int) < ((sa : Int) + 1) * ((sa : Int) + 1) := by
    rw [← e1]
    exact_mod_cast hlt1
  have hi2 : (A2 ^ 2 + B2 ^ 2 : Int) < ((sb : Int) + 1) * ((sb : Int) + 1) := by
    rw [← e2]
    exact_mod_cast hlt2
  have hn1 : (0 : Int) ≤ A1 ^ 2 + B1 ^ 2 := by positivity
  have hn2 : (0 : Int) ≤ A2 ^ 2 + B2 ^ 2 := by positivity
  have hcs : (A1 * A2 + B1 * B2) ^ 2 ≤ (A1 ^ 2 + B1 ^ 2) * (A2 ^ 2 + B2 ^ 2) := by
    nlinarith [sq_nonneg (A1 * B2 - A2 * B1)]
  have hprod : (A1 ^ 2 + B1 ^ 2) * (A2 ^ 2 + B2 ^ 2) <
      (((sa : Int) + 1) * ((sb : Int) + 1)) * (((sa : Int) + 1) * ((sb : Int) + 1)) := by
    have h := mul_lt_mul'' hi1 hi2 hn1 hn2
    calc (A1 ^ 2 + B1 ^ 2) * (A2 ^ 2 + B2 ^ 2) <
        (((sa : Int) + 1) * ((sa : Int) + 1)) * (((sb : Int) + 1) * ((sb : Int) + 1)) := h
      _ = (((sa : Int) + 1) * ((sb : Int) + 1)) * (((sa : Int) + 1) * ((sb : Int) + 1)) := by
        ring
  have hM : (0 : Int) < ((sa : Int) + 1) * ((sb : Int) + 1) := by positivity
  have hdot : A1 * A2 + B1 * B2 ≤ ((sa : Int) + 1) * ((sb : Int) + 1) := by
    by_contra hcon
    push_neg at hcon
    have hsq : (((sa : Int) + 1) * ((sb : Int) + 1)) * (((sa : Int) + 1) * ((sb : Int) + 1)) <
        (A1 * A2 + B1 * B2) * (A1 * A2 + B1 * B2) :=
      mul_lt_mul'' hcon hcon (le_of_lt hM) (le_of_lt hM)
    have hsq2 : (A1 * A2 + B1 * B2) * (A1 * A2 + B1 * B2) ≤
        (A1 ^ 2 + B1 ^ 2) * (A2 ^ 2 + B2 ^ 2) := by
      calc (A1 * A2 + B1 * B2) * (A1 * A2 + B1 * B2) = (A1 * A2 + B1 * B2) ^ 2 := by ring
        _ ≤ _ := hcs
    linarith
  have hfin : S0 < (sa + sb + 2) * (sa + sb + 2) := by
    have hz : (S0 : Int) < ((sa : Int) + sb + 2) * ((sa : Int) + sb + 2) := by
      have expand : ((sa : Int) + sb + 2) * ((sa : Int) + sb + 2) =
          ((sa : Int) + 1) * ((sa : Int) + 1) + ((sb : Int) + 1) * ((sb : Int) + 1) +
            2 * (((sa : Int) + 1) * ((sb : Int) + 1)) := by ring
      have expand2 : (S0 : Int) =
          (A1 ^ 2 + B1 ^ 2) + (A2 ^ 2 + B2 ^ 2) + 2 * (A1 * A2 + B1 * B2) := by
        rw [e0]; ring
      rw [expand, expand2]
      linarith
    exact_mod_cast hz
  have := Nat.sqrt_lt.mpr hfin
  omega

theorem distFloor_triangle (x y z : Node) :
    distFloor x z ≤ distFloor x y + distFloor y z + 1 := by
  unfold distFloor
  rw [natSqrt_eq_sqrt, natSqrt_eq_sqrt, natSqrt_eq_sqrt]
  have hrw : distSq x z = (((y.lat - x.lat) * 111229) + ((z.lat - y.lat) * 111229)) ^ 2 +
      (((y.lon - x.lon) * 71695) + ((z.lon - y.lon) * 71695)) ^ 2 := by
    unfold distSq
    ring
  rw [hrw]
  have tri := sqrt_sq_add_sq_triangle ((y.lat - x.lat) * 111229) ((y.lon - x.lon) * 71695)
    ((z.lat - y.lat) * 111229) ((z.lon - y.lon) * 71695)
  have h1 : Nat.sqrt ((((y.lat - x.lat) * 111229) + ((z.lat - y.lat) * 111229)) ^ 2 +
      (((y.lon - x.lon) * 71695) + ((z.lon - y.lon) * 71695)) ^ 2).toNat / 10 ^ 7 ≤
      (Nat.sqrt (distSq x y).toNat + Nat.sqrt (distSq y z).toNat + 1) / 10 ^ 7 :=
    Nat.div_le_div_right tri
  refine h1.trans ?_
  omega

/-- A quotient by a truncated speed in `[1, 30]` loses at most a factor 30
plus 29: `a ≤ 30 * (a / q) + 29`. -/
theorem le_thirty_mul_div (a q : Nat) (hq1 : 1 ≤ q) (hq30 : q ≤ 30) :
    a ≤ 30 * (a / q) + 29 := by
  have hmod := Nat.div_add_mod a q
  have hlt : a % q < q := Nat.mod_lt a hq1
  have hmul : q * (a / q) ≤ 30 * (a / q) := Nat.mul_le_mul_right _ hq30
  omega

theorem alistMapVals_lookup {β γ : Type} (f : Int → β → γ) (s : AList (fun _ : Int => β))
    (k : Int) : (alistMapVals f s).lookup k = (s.lookup k).map (f k) := by
  obtain ⟨l, nd⟩ := s
  show List.dlookup k (l.map (fun e => (⟨e.1, f e.1 e.2⟩ : Sigma fun _ : Int => γ))) =
    (List.dlookup k l).map (f k)
  induction l with
  | nil => rfl
  | cons hd tl ih =>
    by_cases hk : k = hd.1
    · obtain ⟨a, b⟩ := hd
      rw [List.map_cons]
      simp only []
      rw [hk, List.dlookup_cons_eq, List.dlookup_cons_eq]
      rfl
    · rw [List.map_cons, List.dlookup_cons_ne _ _ (by simpa using hk),
        List.dlookup_cons_ne _ _ hk]
      exact ih (List.nodupKeys_of_nodupKeys_cons nd)

theorem a_star_heuristic_some {g : RoadNetwork} {t : Int} {hm : HeurMap}
    (h : a_star_heuristic g t = some hm) :
    ∃ tailNode, g.nodes.lookup t = some tailNode ∧
      ∀ n nd, g.nodes.lookup n = some nd → hm.lookup n = some (heuristicVal nd tailNode) := by
  unfold a_star_heuristic at h
  cases hl : g.nodes.lookup t with
  | none =>
    rw [hl] at h
    cases h
  | some tailNode =>
    rw [hl] at h
    simp only [Option.map_some', Option.some.injEq] at h
    subst h
    refine ⟨tailNode, rfl, ?_⟩
    intro n nd hnd
    rw [alistMapVals_lookup, hnd]
    rfl

/-- Both endpoints of an edge of a built graph survive pruning, and their
graph records agree with the input node map. -/
theorem build_nodes_of_edge {nm : NodeMap} {ways : List Way} {g : RoadNetwork}
    (hg : build_graph nm ways = some g) (hwf : WFNodeMap nm) {u v : Int} {c : Nat} {fl : Bool}
    (he : edgeEntry g u v = some (c, fl)) :
    ∃ nu nv, g.nodes.lookup u = some nu ∧ g.nodes.lookup v = some nv ∧
      nm.lookup u = some nu ∧ nm.lookup v = some nv := by
  have hok : EdgesOK nm ways g.edges := build_edgesOK hg hwf
  obtain ⟨_, hnodes, _, _⟩ := new_some_elim hg
  obtain ⟨_, w, hw, nu, nv, hnu, hnv, _, _, _⟩ := hok.prov u v c fl he
  obtain ⟨fl2, hrev⟩ := hok.symm u v c fl he
  have husome : (g.edges.lookup u).isSome := by
    unfold lookup2 at hrev
    cases hu : g.edges.lookup u with
    | none =>
      unfold edgeEntry at he
      rw [hu] at he
      cases he
    | some inner => rfl
  have hvsome : (g.edges.lookup v).isSome := by
    unfold lookup2 at hrev
    cases hv : g.edges.lookup v with
    | none =>
      rw [hv] at hrev
      cases hrev
    | some inner => rfl
  refine ⟨nu, nv, ?_, ?_, hnu, hnv⟩
  · rw [hnodes]
    exact filterNodes_lookup.mpr ⟨hnu, husome⟩
  · rw [hnodes]
    exact filterNodes_lookup.mpr ⟨hnv, hvsome⟩

/-- Along any path of a built graph, the truncated straight-line distance
between the endpoints is at most `30·cost + 30·edges`. -/
theorem distFloor_le_path {nm : NodeMap} {ways : List Way} {g : RoadNetwork}
    (hg : build_graph nm ways = some g) (hwf : WFNodeMap nm)
    (hspeed : ∀ w ∈ ways, w.speed ≤ 110) {n t : Int} {c k : Nat}
    (hpath : HasPath g n t c k) :
    ∀ nn tn, g.nodes.lookup n = some nn → g.nodes.lookup t = some tn →
      distFloor nn tn ≤ 30 * c + 30 * k := by
  induction hpath with
  | refl =>
    intro nn tn h1 h2
    rw [h1] at h2
    cases h2
    have : distFloor nn nn = 0 := by
      unfold distFloor distSq
      simp [natSqrt, sqrtFuel]
    omega
  | @snoc u v c1 k1 w fl hp he ih =>
    intro nn tn h1 h2
    obtain ⟨nu, nv, hgu, hgv, hmu, hmv⟩ := build_nodes_of_edge hg hwf he
    have h2e : nv = tn := by
      rw [hgv] at h2
      injection h2
    have ihb := ih nn nu h1 hgu
    obtain ⟨_, w2, hw2, nu2, nv2, hnu2, hnv2, _, hcost, hq1⟩ :=
      (build_edgesOK hg hwf).prov u v w fl he
    have hnue : nu = nu2 := by
      rw [hmu] at hnu2
      injection hnu2
    have hnve : nv = nv2 := by
      rw [hmv] at hnv2
      injection hnv2
    have hq30 : w2.speed * 5 / 18 ≤ 30 := by
      have hs : w2.speed ≤ 110 := hspeed w2 hw2
      have h5 : w2.speed * 5 ≤ 550 := by omega
      have := Nat.div_le_div_right (c := 18) h5
      omega
    have hedge : distFloor nu nv ≤ 30 * w + 29 := by
      rw [hnue, hnve, hcost]
      unfold segCostNat
      exact le_thirty_mul_div _ _ hq1 hq30
    have htri := distFloor_triangle nn nu nv
    rw [← h2e]
    omega

/-- C3 amended: the heuristic value of a node is at most the cost of any
path from the node to the target *plus the number of edges of that path*
(in particular at most the true shortest distance plus its edge count).
Per-edge cost truncation makes the unqualified claim false. -/
theorem claim_C3_heuristic_bound (nm : NodeMap) (ways : List Way) (g : RoadNetwork)
    (t : Int) (hm : HeurMap) (n : Int) (hn : Nat) (c k : Nat)
    (hg : build_graph nm ways = some g) (hwf : WFNodeMap nm)
    (hspeed : ∀ w ∈ ways, w.speed ≤ 110)
    (hh : a_star_heuristic g t = some hm)
    (hl : hm.lookup n = some hn)
    (hpath : HasPath g n t c k) :
    hn ≤ c + k := by
  obtain ⟨tailNode, htail, hval⟩ := a_star_heuristic_some hh
  cases hnn : g.nodes.lookup n with
  | none =>
    have hkeys : (hm.lookup n).isSome := by rw [hl]; rfl
    unfold a_star_heuristic at hh
    rw [htail] at hh
    simp only [Option.map_some', Option.some.injEq] at hh
    rw [← hh, alistMapVals_lookup, hnn] at hkeys
    simp only [Option.map_none', Option.isSome_none] at hkeys
    exact Bool.noConfusion hkeys
  | some nn =>
    have := hval n nn hnn
    rw [hl] at this
    injection this with hv
    have hd := distFloor_le_path hg hwf hspeed hpath nn tailNode hnn htail
    have h30 : (110 * 5 / 18 : Nat) = 30 := by norm_num
    rw [hv]
    unfold heuristicVal
    rw [h30, distFloor_comm]
    calc distFloor nn tailNode / 30 ≤ (30 * c + 30 * k) / 30 := Nat.div_le_div_right hd
      _ = c + k := by omega

theorem claim_C3_heuristic_bound_witness :
    build_graph nmChain waysChain = some gChain ∧
    (∀ w ∈ waysChain, w.speed ≤ 110) ∧
    a_star_heuristic gChain 6 = some hmChain ∧
    hmChain.lookup 1 = some 1 ∧
    HasPath gChain 1 6 0 5 ∧ (1 : Nat) ≤ 0 + 5 := by
  have h12 : edgeEntry gChain 1 2 = some (0, false) := by decide
  have h23 : edgeEntry gChain 2 3 = some (0, false) := by decide
  have h34 : edgeEntry gChain 3 4 = some (0, false) := by decide
  have h45 : edgeEntry gChain 4 5 = some (0, false) := by decide
  have h56 : edgeEntry gChain 5 6 = some (0, false) := by decide
  have hpath : HasPath gChain 1 6 0 5 :=
    .snoc (.snoc (.snoc (.snoc (.snoc .refl h12) h23) h34) h45) h56
  refine ⟨build_gChain, by decide, heur_gChain, by decide, hpath, ?_⟩
  exact claim_C3_heuristic_bound nmChain waysChain gChain 6 hmChain 1 1 0 5 build_gChain
    (wfNodeMap_of_all (by decide)) (by decide) heur_gChain (by decide) hpath

/-- C3 counterexample: on the six-node chain every edge cost truncates to 0,
so the true shortest distance from node 1 to node 6 is 0, while
`compute_heuristic` assigns node 1 the value 1 > 0: the heuristic is not
admissible on the code's truncated costs. -/
theorem claim_C3_counterexample :
    build_graph nmChain waysChain = some gChain ∧
    a_star_heuristic gChain 6 = some hmChain ∧
    hmChain.lookup 1 = some 1 ∧
    HasPath gChain 1 6 0 5 ∧ ¬(1 ≤ 0) := by
  have h12 : edgeEntry gChain 1 2 = some (0, false) := by decide
  have h23 : edgeEntry gChain 2 3 = some (0, false) := by decide
  have h34 : edgeEntry gChain 3 4 = some (0, false) := by decide
  have h45 : edgeEntry gChain 4 5 = some (0, false) := by decide
  have h56 : edgeEntry gChain 5 6 = some (0, false) := by decide
  exact ⟨build_gChain, heur_gChain, by decide,
    .snoc (.snoc (.snoc (.snoc (.snoc .refl h12) h23) h34) h45) h56, by decide⟩

/-- Membership in the positive-count filter of `get_unvisted_node_id`. -/
theorem mem_positive_filter (other : CountMap) (k : Int) :
    (k ∈ (other.entries.filter (fun s2 => decide (0 < s2.2))).map Sigma.fst) ↔
      ∃ cnt, other.lookup k = some cnt ∧ 0 < cnt := by
  rw [List.mem_map]
  constructor
  · intro ⟨s, hs, hk⟩
    obtain ⟨hmem, hpos⟩ := List.mem_filter.mp hs
    refine ⟨s.2, ?_, by simpa using hpos⟩
    rw [← hk]
    exact Option.mem_def.mp (AList.mem_lookup_iff.mpr (by exact hmem))
  · intro ⟨cnt, hl, hpos⟩
    exact ⟨⟨k, cnt⟩, List.mem_filter.mpr
      ⟨AList.mem_lookup_iff.mp (Option.mem_def.mpr hl), by simpa using hpos⟩, rfl⟩

/-- C9 amended: `get_unvisted_node_id` returns `none` outright whenever the
visitation map has exactly as many entries as the graph has nodes, whatever
the counts are; only otherwise does it return some node id that is absent
from the map or recorded with a non-positive count (the code treats negative
counts like zero), and then `none` only when every node is recorded with a
positive count. -/
theorem claim_C9_first_unvisited (d : RoadDijkstra) (other : CountMap) :
    (other.entries.length = d.graph.nodes.entries.length →
      d.get_unvisted_node_id other = none) ∧
    (other.entries.length ≠ d.graph.nodes.entries.length →
      ((∃ s ∈ d.graph.nodes.entries, ∀ cnt, other.lookup s.1 = some cnt → cnt ≤ 0) →
        ∃ nid, d.get_unvisted_node_id other = some nid ∧ nid ∈ d.graph.nodes ∧
          ∀ cnt, other.lookup nid = some cnt → cnt ≤ 0) ∧
      (d.get_unvisted_node_id other = none →
        ∀ s ∈ d.graph.nodes.entries, ∃ cnt, other.lookup s.1 = some cnt ∧ 0 < cnt)) := by
  constructor
  · intro hlen
    unfold RoadDijkstra.get_unvisted_node_id
    rw [if_pos hlen]
  · intro hlen
    constructor
    · intro ⟨s, hs, hcnt⟩
      have hps : (fun s2 : Sigma fun _ : Int => Node =>
          !(((other.entries.filter (fun s3 => decide (0 < s3.2))).map
            Sigma.fst).contains s2.1)) s = true := by
        simp only [Bool.not_eq_true']
        rw [← Bool.not_eq_true]
        intro hcon
        obtain ⟨cnt, hl, hpos⟩ := (mem_positive_filter other s.1).mp (List.elem_iff.mp hcon)
        exact absurd hpos (not_lt.mpr (hcnt cnt hl))
      have hsome : (d.graph.nodes.entries.find? (fun s2 =>
          !(((other.entries.filter (fun s3 => decide (0 < s3.2))).map
            Sigma.fst).contains s2.1))).isSome = true :=
        List.find?_isSome.mpr ⟨s, hs, hps⟩
      obtain ⟨s0, hs0⟩ := Option.isSome_iff_exists.mp hsome
      have hs0mem := List.mem_of_find?_eq_some hs0
      have hs0p := List.find?_some hs0
      refine ⟨s0.1, ?_, ?_, ?_⟩
      · unfold RoadDijkstra.get_unvisted_node_id
        rw [if_neg hlen, hs0]
        rfl
      · exact AList.mem_keys.mpr (List.mem_map.mpr ⟨s0, hs0mem, rfl⟩)
      · intro cnt hl
        simp only [Bool.not_eq_true'] at hs0p
        by_contra hpos
        rw [← Bool.not_eq_true] at hs0p
        exact hs0p (List.elem_iff.mpr ((mem_positive_filter other s0.1).mpr
          ⟨cnt, hl, lt_of_not_ge hpos⟩))
    · intro hnone s hs
      unfold RoadDijkstra.get_unvisted_node_id at hnone
      rw [if_neg hlen] at hnone
      have hfind := Option.map_eq_none'.mp hnone
      have := List.find?_eq_none.mp hfind s hs
      simp only [Bool.not_eq_true', Bool.not_eq_false] at this
      exact (mem_positive_filter other s.1).mp (List.elem_iff.mp this)

theorem claim_C9_first_unvisited_witness :
    build_graph nmAB waysAB = some gAB ∧
    cmOne.entries.length ≠ (RoadDijkstra.new gAB).graph.nodes.entries.length ∧
    ∃ nid, (RoadDijkstra.new gAB).get_unvisted_node_id cmOne = some nid ∧
      nid ∈ (RoadDijkstra.new gAB).graph.nodes ∧
      ∀ cnt, cmOne.lookup nid = some cnt → cnt ≤ 0 := by
  refine ⟨build_gAB, by decide, ?_⟩
  refine ((claim_C9_first_unvisited (RoadDijkstra.new gAB) cmOne).2 (by decide)).1 ?_
  refine ⟨⟨1, ⟨1, 0, 0⟩⟩, by decide, ?_⟩
  intro cnt hl
  have h0 : cmOne.lookup (1 : Int) = some 0 := by decide
  rw [h0] at hl
  cases hl
  decide

/-! ### The modelled heap -/

theorem popMin_cons_isSome (x : Nat × RoadPathedNode) (xs : List (Nat × RoadPathedNode)) :
    (popMin (x :: xs)).isSome = true := by
  simp only [popMin]
  cases popMin xs with
  | none => rfl
  | some pr =>
    obtain ⟨m, rest⟩ := pr
    by_cases h : x.1 ≤ m.1 <;> simp [h]

theorem popMin_spec :
    ∀ {l : List (Nat × RoadPathedNode)} {m : Nat × RoadPathedNode}
      {rest : List (Nat × RoadPathedNode)}, popMin l = some (m, rest) →
      l.Perm (m :: rest) ∧ ∀ x ∈ l, m.1 ≤ x.1 := by
  intro l
  induction l with
  | nil =>
    intro m rest h
    cases h
  | cons x xs ih =>
    intro m rest h
    simp only [popMin] at h
    cases hxs : popMin xs with
    | none =>
      rw [hxs] at h
      simp only [] at h
      have hx : xs = [] := by
        cases xs with
        | nil => rfl
        | cons y ys =>
          have := popMin_cons_isSome y ys
          rw [hxs] at this
          cases this
      cases h
      subst hx
      refine ⟨List.Perm.refl _, ?_⟩
      intro z hz
      rcases List.mem_singleton.mp hz with rfl
      exact le_rfl
    | some pr =>
      obtain ⟨m2, rest2⟩ := pr
      rw [hxs] at h
      simp only [] at h
      obtain ⟨hperm2, hmin2⟩ := ih hxs
      by_cases hx : x.1 ≤ m2.1
      · rw [if_pos hx] at h
        cases h
        refine ⟨List.Perm.refl _, ?_⟩
        intro z hz
        rcases List.mem_cons.mp hz with rfl | hz2
        · exact le_rfl
        · exact le_trans hx (hmin2 z hz2)
      · rw [if_neg hx] at h
        cases h
        constructor
        · exact (hperm2.cons x).trans (List.Perm.swap _ _ _)
        · intro z hz
          rcases List.mem_cons.mp hz with rfl | hz2
          · exact le_of_not_le hx
          · exact hmin2 z hz2

theorem popMin_mem {l : List (Nat × RoadPathedNode)} {m : Nat × RoadPathedNode}
    {rest : List (Nat × RoadPathedNode)} (h : popMin l = some (m, rest)) : m ∈ l :=
  (popMin_spec h).1.mem_iff.mpr (List.mem_cons_self _ _)

theorem popMin_rest_mem {l : List (Nat × RoadPathedNode)} {m : Nat × RoadPathedNode}
    {rest : List (Nat × RoadPathedNode)} (h : popMin l = some (m, rest)) :
    ∀ x ∈ rest, x ∈ l :=
  fun _ hx => (popMin_spec h).1.mem_iff.mpr (List.mem_cons_of_mem _ hx)

/-! ### Bound behavior of the search (C2) -/

/-- Relaxation preserves the invariant that every queued record's strict
ancestors were settled within the cost bound. -/
theorem relaxAll_anc (ub : Nat) (heur : Option HeurMap) (cur : RoadPathedNode)
    (hcub : cur.distance_from_start ≤ ub)
    (hcuranc : ∀ a ∈ ancestorRecords cur, a.distance_from_start ≤ ub) :
    ∀ (nbrs : List (Node × Nat)) (st : RelaxState),
      (∀ e ∈ st.pq, ∀ a ∈ ancestorRecords e.2, a.distance_from_start ≤ ub) →
      ∀ e ∈ (relaxAll heur cur nbrs st).pq, ∀ a ∈ ancestorRecords e.2,
        a.distance_from_start ≤ ub := by
  intro nbrs
  induction nbrs with
  | nil =>
    intro st h
    exact h
  | cons nb rest ih =>
    intro st h
    simp only [relaxAll]
    apply ih
    intro e he a ha
    unfold relaxOne at he
    simp only [] at he
    by_cases hlt : cur.distance_from_start + nb.2 < (st.gscore nb.1.id).getD u64MAX
    · rw [if_pos hlt] at he
      simp only [] at he
      rcases List.mem_cons.mp he with rfl | he2
      · simp only [ancestorRecords] at ha
        rcases List.mem_cons.mp ha with rfl | ha2
        · exact hcub
        · exact hcuranc a ha2
      · exact h e he2 a ha
    · rw [if_neg hlt] at he
      exact h e he a ha

/-- Every record returned by the search loop has all its strict ancestors
within the cost bound: a record is expanded only after passing the bound
test. -/
theorem dijkstraLoop_anc (g : RoadNetwork) (ub maxS : Nat) (t : Int) (heur : Option HeurMap)
    (flags : Bool) :
    ∀ (fuel : Nat) (pq : List (Nat × RoadPathedNode)) (gscore : Int → Option Nat)
      (visited : VisitMap) (prev : PrevMap) (r : RoadPathedNode) (prev2 : PrevMap)
      (vis2 : VisitMap),
      (∀ e ∈ pq, ∀ a ∈ ancestorRecords e.2, a.distance_from_start ≤ ub) →
      dijkstraLoop g ub maxS t heur flags fuel pq gscore visited prev =
        some (some r, prev2, vis2) →
      ∀ a ∈ ancestorRecords r, a.distance_from_start ≤ ub := by
  intro fuel
  induction fuel with
  | zero =>
    intro pq gscore visited prev r prev2 vis2 hanc hrun
    cases hrun
  | succ fuel ih =>
    intro pq gscore visited prev r prev2 vis2 hanc hrun
    unfold dijkstraLoop at hrun
    cases hpop : popMin pq with
    | none =>
      rw [hpop] at hrun
      simp only [] at hrun
      simp at hrun
    | some pr =>
      obtain ⟨⟨key, cur⟩, pqRest⟩ := pr
      rw [hpop] at hrun
      simp only [] at hrun
      have hcuranc : ∀ a ∈ ancestorRecords cur, a.distance_from_start ≤ ub :=
        hanc _ (popMin_mem hpop)
      by_cases hidx : cur.node_self.id = t
      · rw [if_pos hidx] at hrun
        simp only [Option.some.injEq, Prod.mk.injEq] at hrun
        obtain ⟨hres, -, -⟩ := hrun
        subst hres
        exact hcuranc
      · rw [if_neg hidx] at hrun
        by_cases hstop : cur.distance_from_start > ub ∨
            (visited.insert cur.node_self.id cur.distance_from_start).entries.length > maxS
        · rw [if_pos hstop] at hrun
          simp at hrun
        · rw [if_neg hstop] at hrun
          have hcub : cur.distance_from_start ≤ ub := by
            push_neg at hstop
            exact hstop.1
          by_cases hstale : cur.distance_from_start >
              (gscore cur.node_self.id).getD u64MAX
          · rw [if_pos hstale] at hrun
            exact ih pqRest gscore _ prev r prev2 vis2
              (fun e he => hanc e (popMin_rest_mem hpop e he)) hrun
          · rw [if_neg hstale] at hrun
            cases hnb : getNeighborsCore g
                (visited.insert cur.node_self.id cur.distance_from_start) cur flags with
            | none =>
              rw [hnb] at hrun
              simp only [] at hrun
              exact Option.noConfusion hrun
            | some nbrs =>
              rw [hnb] at hrun
              simp only [] at hrun
              refine ih _ _ _ _ r prev2 vis2 ?_ hrun
              exact relaxAll_anc ub heur cur hcub hcuranc nbrs ⟨pqRest, gscore, prev⟩
                (fun e he => hanc e (popMin_rest_mem hpop e he))

theorem dijkstra_run_elim {d : RoadDijkstra} {s t : Int} {heur : Option HeurMap} {flags : Bool}
    {res : (Option RoadPathedNode × PrevMap) × RoadDijkstra}
    (h : d.dijkstra s t heur flags = some res) :
    ∃ source, d.graph.nodes.lookup s = some source ∧
      ¬(t > 0 ∧ (d.graph.nodes.lookup t).isNone) ∧
      ∃ out, dijkstraLoop d.graph d.cost_upper_bound d.max_settled_nodes t heur flags
          (dijkstraFuel d.graph) [(0, RoadPathedNode.root source 0)]
          (gUpdate (fun _ => none) s 0) ∅ ∅ = some out ∧
        res = ((out.1, out.2.1), { d with visited_nodes := out.2.2 }) := by
  unfold RoadDijkstra.dijkstra at h
  cases hsrc : d.graph.nodes.lookup s with
  | none =>
    rw [hsrc] at h
    simp only [] at h
    exact Option.noConfusion h
  | some source =>
    rw [hsrc] at h
    simp only [] at h
    by_cases htgt : t > 0 ∧ (d.graph.nodes.lookup t).isNone
    · rw [if_pos htgt] at h
      exact Option.noConfusion h
    · rw [if_neg htgt] at h
      cases hloop : dijkstraLoop d.graph d.cost_upper_bound d.max_settled_nodes t heur flags
          (dijkstraFuel d.graph) [(0, RoadPathedNode.root source 0)]
          (gUpdate (fun _ => none) s 0) ∅ ∅ with
      | none =>
        rw [hloop] at h
        simp only [] at h
        exact Option.noConfusion h
      | some out =>
        obtain ⟨res0, prev0, vis0⟩ := out
        rw [hloop] at h
        simp only [] at h
        refine ⟨source, rfl, htgt, (res0, prev0, vis0), hloop, ?_⟩
        simp only [Option.some.injEq] at h
        exact h.symm

/-- C2 amended: with `cost_upper_bound = B`, every *strict ancestor* of a
returned path record was settled at distance ≤ B: the bound test happens
after the target test, so only non-terminal expansions are bounded, and the
terminal record itself — and hence the whole returned path — may cost more
than B (see the counterexample, which also defeats "no path when the optimum
exceeds B"). -/
theorem claim_C2_bound_on_ancestors (d : RoadDijkstra) (s t : Int) (heur : Option HeurMap)
    (flags : Bool) (r : RoadPathedNode) (prev : PrevMap) (d2 : RoadDijkstra)
    (hrun : d.find_path s t heur flags = some ((some r, prev), d2)) :
    ∀ a ∈ ancestorRecords r, a.distance_from_start ≤ d.cost_upper_bound := by
  obtain ⟨source, hsrc, htgt, out, hloop, hres⟩ := dijkstra_run_elim hrun
  obtain ⟨res0, prev0, vis0⟩ := out
  simp only [Prod.mk.injEq] at hres
  obtain ⟨⟨hres0, _⟩, _⟩ := hres
  rw [← hres0] at hloop
  refine dijkstraLoop_anc d.graph d.cost_upper_bound d.max_settled_nodes t heur flags
    (dijkstraFuel d.graph) _ _ _ _ r _ _ ?_ hloop
  intro e he a ha
  rcases List.mem_singleton.mp he with rfl
  simp only [ancestorRecords] at ha
  exact absurd ha (List.not_mem_nil a)

theorem claim_C2_bound_on_ancestors_witness :
    build_graph nmFar waysFar = some gFar ∧
    ∃ r prev d2, ((RoadDijkstra.new gFar).set_cost_upper_bound 3).find_path 1 2 none false =
        some ((some r, prev), d2) ∧
      ∀ a ∈ ancestorRecords r, a.distance_from_start ≤
        ((RoadDijkstra.new gFar).set_cost_upper_bound 3).cost_upper_bound := by
  refine ⟨(Option.some_get _).symm, ?_⟩
  cases hrun : ((RoadDijkstra.new gFar).set_cost_upper_bound 3).find_path 1 2 none false with
  | none =>
    have hs : (((RoadDijkstra.new gFar).set_cost_upper_bound 3).find_path 1 2
        none false).isSome = true := by decide
    rw [hrun] at hs
    cases hs
  | some res =>
    obtain ⟨⟨ores, prev⟩, d2⟩ := res
    cases ores with
    | none =>
      have hs : (((((RoadDijkstra.new gFar).set_cost_upper_bound 3).find_path 1 2
          none false).map (fun p => p.1.1.isSome))) = some true := by decide
      rw [hrun] at hs
      simp only [Option.map_some', Option.some.injEq] at hs
      cases hs
    | some r =>
      exact ⟨r, prev, d2, rfl, claim_C2_bound_on_ancestors _ 1 2 none false r prev d2 hrun⟩

/-- C2 counterexample: with `cost_upper_bound = 3` on a graph whose single
edge costs 5, `find_path` still returns a record of cost 5 > 3 (the target
test precedes the bound test), and since every 1→2 path costs at least 5,
the true optimum also exceeds the bound yet no-path is *not* reported. -/
theorem claim_C2_counterexample :
    ((build_graph nmFar waysFar).bind (fun g =>
        ((RoadDijkstra.new g).set_cost_upper_bound 3).find_path 1 2 none false)).map
      (fun p => p.1.1.map RoadPathedNode.distance_from_start) = some (some 5) ∧
    ¬((5 : Nat) ≤ 3) := by
  exact ⟨by decide, by decide⟩

/-! ### Chains, sums, and neighbor expansion (towards C1) -/

theorem chain_hasPath (g : RoadNetwork) (s : Int) :
    ∀ r, ChainValid g s r →
      HasPath g s r.node_self.id r.distance_from_start (ancestorRecords r).length := by
  intro r
  induction r with
  | root nd dist =>
    intro ⟨h1, h2, _⟩
    simp only [RoadPathedNode.node_self, RoadPathedNode.distance_from_start, ancestorRecords,
      List.length_nil]
    rw [h1, h2]
    exact HasPath.refl
  | child nd dist p ih =>
    intro ⟨hp, _, w, fl, hedge, hdist⟩
    simp only [RoadPathedNode.node_self, RoadPathedNode.distance_from_start, ancestorRecords,
      List.length_cons]
    rw [hdist]
    exact HasPath.snoc (ih hp) hedge

theorem edge_cost_le_innerSumOf {g : RoadNetwork} {u v : Int} {w : Nat} {fl : Bool}
    (h : edgeEntry g u v = some (w, fl)) :
    w ≤ innerSumOf g u ∧ (g.edges.lookup u).isSome = true := by
  unfold edgeEntry at h
  cases hu : g.edges.lookup u with
  | none =>
    rw [hu] at h
    cases h
  | some inner =>
    rw [hu] at h
    simp only [Option.some_bind] at h
    have hmem : (⟨v, (w, fl)⟩ : Sigma fun _ : Int => Nat × Bool) ∈ inner.entries :=
      AList.mem_lookup_iff.mp (Option.mem_def.mpr h)
    constructor
    · unfold innerSumOf
      rw [hu]
      simp only [Option.map_some', Option.getD_some]
      unfold innerSum
      have hw : w ∈ inner.entries.map (fun e => e.2.1) :=
        List.mem_map.mpr ⟨⟨v, (w, fl)⟩, hmem, rfl⟩
      exact List.single_le_sum (fun x _ => Nat.zero_le x) w hw
    · rfl

theorem chain_dist_le_ancSum (g : RoadNetwork) (s : Int) :
    ∀ r, ChainValid g s r →
      r.distance_from_start ≤
        (((ancestorRecords r).map (fun a => a.node_self.id)).map (innerSumOf g)).sum := by
  intro r
  induction r with
  | root nd dist =>
    intro ⟨_, h2, _⟩
    simp [RoadPathedNode.distance_from_start, ancestorRecords, h2]
  | child nd dist p ih =>
    intro ⟨hp, _, w, fl, hedge, hdist⟩
    simp only [RoadPathedNode.distance_from_start, ancestorRecords, List.map_cons, List.sum_cons]
    have hw := (edge_cost_le_innerSumOf hedge).1
    have hihp := ih hp
    omega

/-- The ancestor tails of a valid chain all carry an edge-map entry. -/
theorem chain_anc_edges (g : RoadNetwork) (s : Int) :
    ∀ r, ChainValid g s r →
      ∀ a ∈ ancestorRecords r, (g.edges.lookup a.node_self.id).isSome = true := by
  intro r
  induction r with
  | root nd dist =>
    intro _ a ha
    simp only [ancestorRecords] at ha
    exact absurd ha (List.not_mem_nil a)
  | child nd dist p ih =>
    intro ⟨hp, _, w, fl, hedge, _⟩ a ha
    simp only [ancestorRecords] at ha
    rcases List.mem_cons.mp ha with rfl | ha2
    · exact (edge_cost_le_innerSumOf hedge).2
    · exact ih hp a ha2

theorem chainIds_eq (r : RoadPathedNode) :
    chainIds r = r.node_self.id :: (ancestorRecords r).map (fun a => a.node_self.id) := by
  induction r with
  | root nd dist => rfl
  | child nd dist p ih =>
    simp only [chainIds, ancestorRecords, List.map_cons, RoadPathedNode.node_self]
    rw [ih]
    rfl

theorem sum_map_le_of_subset (f : Int → Nat) :
    ∀ (S T : List Int), S.Nodup → T.Nodup → (∀ x ∈ S, x ∈ T) →
      (S.map f).sum ≤ (T.map f).sum := by
  intro S
  induction S with
  | nil =>
    intro T _ _ _
    simp
  | cons a S2 ih =>
    intro T hS hT hsub
    have haT : a ∈ T := hsub a (List.mem_cons_self _ _)
    have hperm : T.Perm (a :: T.erase a) := List.perm_cons_erase haT
    have hsum : (T.map f).sum = ((a :: T.erase a).map f).sum := List.Perm.sum_eq (hperm.map f)
    rw [hsum]
    simp only [List.map_cons, List.sum_cons]
    have hS2 : S2.Nodup := (List.nodup_cons.mp hS).2
    have haS2 : a ∉ S2 := (List.nodup_cons.mp hS).1
    have hTe : (T.erase a).Nodup := hT.erase a
    have hsub2 : ∀ x ∈ S2, x ∈ T.erase a := by
      intro x hx
      have hxT := hsub x (List.mem_cons_of_mem _ hx)
      have hxa : x ≠ a := fun h => haS2 (h ▸ hx)
      exact (List.mem_erase_of_ne hxa).mpr hxT
    exact Nat.add_le_add_left (ih _ hS2 hTe hsub2) (f a)

theorem sum_map_lt_of_point (f f2 : Int → Nat) :
    ∀ (T : List Int), T.Nodup → ∀ u, u ∈ T → (∀ x ∈ T, x ≠ u → f2 x = f x) → f2 u < f u →
      (T.map f2).sum < (T.map f).sum := by
  intro T
  induction T with
  | nil =>
    intro _ u hu
    cases hu
  | cons a T2 ih =>
    intro hT u hu hoff hat
    simp only [List.map_cons, List.sum_cons]
    rcases List.mem_cons.mp hu with rfl | hu2
    · have hoffT2 : ∀ x ∈ T2, f2 x = f x := by
        intro x hx
        exact hoff x (List.mem_cons_of_mem _ hx)
          (fun hxu => (List.nodup_cons.mp hT).1 (hxu ▸ hx))
      have hsum : (T2.map f2).sum = (T2.map f).sum := by
        rw [List.map_congr_left hoffT2]
      omega
    · have ha : f2 a = f a :=
        hoff a (List.mem_cons_self _ _) (fun hau => (List.nodup_cons.mp hT).1 (hau ▸ hu2))
      have hrec := ih (List.nodup_cons.mp hT).2 u hu2
        (fun x hx => hoff x (List.mem_cons_of_mem _ hx)) hat
      omega

theorem sum_map_le_length_mul (f : Int → Nat) (B : Nat) :
    ∀ (T : List Int), (∀ x ∈ T, f x ≤ B) → (T.map f).sum ≤ T.length * B := by
  intro T
  induction T with
  | nil =>
    intro _
    simp
  | cons a T2 ih =>
    intro hb
    simp only [List.map_cons, List.sum_cons, List.length_cons]
    have h1 := hb a (List.mem_cons_self _ _)
    have h2 := ih (fun x hx => hb x (List.mem_cons_of_mem _ hx))
    have : (T2.length + 1) * B = T2.length * B + B := by ring
    omega

theorem nodup_subset_length_le {S T : List Int} (hS : S.Nodup) (hsub : ∀ x ∈ S, x ∈ T) :
    S.length ≤ T.length := by
  classical
  have h1 : S.toFinset.card = S.length := List.toFinset_card_of_nodup hS
  have h2 : S.toFinset ⊆ T.toFinset := by
    intro x hx
    rw [List.mem_toFinset] at hx ⊢
    exact hsub x hx
  have h3 : T.toFinset.card ≤ T.length := List.toFinset_card_le T
  have h4 := Finset.card_le_card h2
  omega

/-- The cost of a record whose chain repeats no node is at most the total
edge cost of the graph. -/
theorem chain_dist_le_totalCost {g : RoadNetwork} {s : Int} {r : RoadPathedNode}
    (hv : ChainValid g s r) (hnd : (chainIds r).Nodup) :
    r.distance_from_start ≤ totalCost g := by
  have h1 := chain_dist_le_ancSum g s r hv
  have hanc : ((ancestorRecords r).map (fun a => a.node_self.id)).Nodup := by
    have := hnd
    rw [chainIds_eq] at this
    exact (List.nodup_cons.mp this).2
  have hsub : ∀ x ∈ (ancestorRecords r).map (fun a => a.node_self.id), x ∈ g.edges.keys := by
    intro x hx
    obtain ⟨a, ha, hax⟩ := List.mem_map.mp hx
    have := chain_anc_edges g s r hv a ha
    rw [hax] at this
    have hmem := AList.lookup_isSome.mp this
    exact AList.mem_keys.mp hmem
  calc r.distance_from_start ≤
      (((ancestorRecords r).map (fun a => a.node_self.id)).map (innerSumOf g)).sum := h1
    _ ≤ (g.edges.keys.map (innerSumOf g)).sum :=
      sum_map_le_of_subset (innerSumOf g) _ _ hanc (AList.keys_nodup g.edges) hsub
    _ = totalCost g := rfl

theorem neighborsCollect_spec (g : RoadNetwork) (visited : VisitMap) :
    ∀ (l : List (Sigma fun _ : Int => Nat × Bool)),
      (∀ e ∈ l, ∃ nd, g.nodes.lookup e.1 = some nd ∧ nd.id = e.1) →
      ∃ nbrs, neighborsCollect g visited false l = some nbrs ∧
        (∀ p ∈ nbrs, g.nodes.lookup p.1.id = some p.1 ∧ visited.lookup p.1.id = none ∧
          ∃ fl, (⟨p.1.id, (p.2, fl)⟩ : Sigma fun _ : Int => Nat × Bool) ∈ l) ∧
        (∀ e ∈ l, visited.lookup e.1 = none →
          ∃ nd, (nd, e.2.1) ∈ nbrs ∧ nd.id = e.1) := by
  intro l
  induction l with
  | nil =>
    exact fun _ => ⟨[], rfl, fun p hp => absurd hp (List.not_mem_nil p),
      fun e he => absurd he (List.not_mem_nil e)⟩
  | cons e0 rest ih =>
    intro hhead
    obtain ⟨nbrs2, hrun2, hmem2, hcomp2⟩ := ih (fun e he => hhead e (List.mem_cons_of_mem _ he))
    by_cases hvis : (visited.lookup e0.1).isSome = true
    · refine ⟨nbrs2, ?_, ?_, ?_⟩
      · simp only [neighborsCollect]
        rw [if_pos hvis]
        exact hrun2
      · intro p hp
        obtain ⟨h1, h2, fl, h3⟩ := hmem2 p hp
        exact ⟨h1, h2, fl, List.mem_cons_of_mem _ h3⟩
      · intro e he hv
        rcases List.mem_cons.mp he with rfl | he2
        · rw [hv] at hvis
          cases hvis
        · exact hcomp2 e he2 hv
    · obtain ⟨nd, hnd, hid⟩ := hhead e0 (List.mem_cons_self _ _)
      refine ⟨(nd, e0.2.1) :: nbrs2, ?_, ?_, ?_⟩
      · simp only [neighborsCollect]
        rw [if_neg hvis, if_neg (by simp), hnd, hrun2]
        rfl
      · intro p hp
        rcases List.mem_cons.mp hp with rfl | hp2
        · refine ⟨?_, ?_, e0.2.2, ?_⟩
          · show g.nodes.lookup nd.id = some nd
            rw [hid]
            exact hnd
          · show visited.lookup nd.id = none
            rw [hid]
            exact Option.not_isSome_iff_eq_none.mp hvis
          · show (⟨nd.id, (e0.2.1, e0.2.2)⟩ : Sigma fun _ : Int => Nat × Bool) ∈ e0 :: rest
            rw [hid]
            exact List.mem_cons_self _ _
        · obtain ⟨h1, h2, fl, h3⟩ := hmem2 p hp2
          exact ⟨h1, h2, fl, List.mem_cons_of_mem _ h3⟩
      · intro e he hv
        rcases List.mem_cons.mp he with rfl | he2
        · exact ⟨nd, List.mem_cons_self _ _, hid⟩
        · obtain ⟨nd2, hnd2, hid2⟩ := hcomp2 e he2 hv
          exact ⟨nd2, List.mem_cons_of_mem _ hnd2, hid2⟩

theorem build_GraphWF {nm : NodeMap} {ways : List Way} {g : RoadNetwork}
    (hg : build_graph nm ways = some g) (hwf : WFNodeMap nm) : GraphWF g := by
  constructor
  · intro k n hl
    obtain ⟨_, hnodes, _, _⟩ := new_some_elim hg
    rw [hnodes] at hl
    exact hwf k n (filterNodes_lookup.mp hl).1
  · intro u v c fl he
    obtain ⟨nu, nv, _, hv, _, _⟩ := build_nodes_of_edge hg hwf he
    exact ⟨nv, hv⟩

theorem getNeighborsCore_spec (g : RoadNetwork) (visited : VisitMap) (cur : RoadPathedNode)
    (hwf : GraphWF g) :
    ∃ nbrs, getNeighborsCore g visited cur false = some nbrs ∧
      (∀ p ∈ nbrs, g.nodes.lookup p.1.id = some p.1 ∧ visited.lookup p.1.id = none ∧
        ∃ fl, edgeEntry g cur.node_self.id p.1.id = some (p.2, fl)) ∧
      (∀ v w fl, edgeEntry g cur.node_self.id v = some (w, fl) → visited.lookup v = none →
        ∃ nd, (nd, w) ∈ nbrs ∧ nd.id = v) := by
  unfold getNeighborsCore
  cases hconn : g.edges.lookup cur.node_self.id with
  | none =>
    refine ⟨[], rfl, fun p hp => absurd hp (List.not_mem_nil _), ?_⟩
    intro v w fl he hv
    unfold edgeEntry at he
    rw [hconn] at he
    cases he
  | some inner =>
    have hhead : ∀ e ∈ inner.entries, ∃ nd, g.nodes.lookup e.1 = some nd ∧ nd.id = e.1 := by
      intro e he
      have hl : inner.lookup e.1 = some e.2 := AList.mem_lookup_iff.mpr (by exact he)
      have hedge : edgeEntry g cur.node_self.id e.1 = some (e.2.1, e.2.2) := by
        unfold edgeEntry
        rw [hconn]
        simpa using hl
      obtain ⟨nd, hnd⟩ := hwf.edge_head _ _ e.2.1 e.2.2 hedge
      exact ⟨nd, hnd, hwf.id_eq _ _ hnd⟩
    obtain ⟨nbrs, hrun, hmem, hcomp⟩ := neighborsCollect_spec g visited inner.entries hhead
    refine ⟨nbrs, by simpa using hrun, ?_, ?_⟩
    · intro p hp
      obtain ⟨h1, h2, fl, h3⟩ := hmem p hp
      refine ⟨h1, h2, fl, ?_⟩
      unfold edgeEntry
      rw [hconn]
      simpa using AList.mem_lookup_iff.mpr h3
    · intro v w fl he hv
      unfold edgeEntry at he
      rw [hconn] at he
      simp only [Option.some_bind] at he
      have hmem2 : (⟨v, (w, fl)⟩ : Sigma fun _ : Int => Nat × Bool) ∈ inner.entries :=
        AList.mem_lookup_iff.mp (Option.mem_def.mpr he)
      exact hcomp ⟨v, (w, fl)⟩ hmem2 hv

theorem chain_head_lookup {g : RoadNetwork} {s : Int} {r : RoadPathedNode}
    (h : ChainValid g s r) : g.nodes.lookup r.node_self.id = some r.node_self := by
  cases r with
  | root nd dist =>
    obtain ⟨h1, _, h3⟩ := h
    show g.nodes.lookup nd.id = some nd
    rw [h1]
    exact h3
  | child nd dist p =>
    exact h.2.1

theorem chain_head_mem {g : RoadNetwork} {s : Int} {r : RoadPathedNode}
    (h : ChainValid g s r) : r.node_self.id ∈ g.nodes :=
  AList.lookup_isSome.mp (by rw [chain_head_lookup h]; rfl)

/-- Extending a duplicate-free valid chain by one more edge stays within the
total edge cost of the graph. -/
theorem chain_ext_le_totalCost {g : RoadNetwork} {s : Int} {cur : RoadPathedNode} {v : Int}
    {w : Nat} {fl : Bool} (hcv : ChainValid g s cur) (hnodup : (chainIds cur).Nodup)
    (hedge : edgeEntry g cur.node_self.id v = some (w, fl)) :
    cur.distance_from_start + w ≤ totalCost g := by
  have h1 := chain_dist_le_ancSum g s cur hcv
  have hw := (edge_cost_le_innerSumOf hedge).1
  have hsum : innerSumOf g cur.node_self.id +
      (((ancestorRecords cur).map (fun a => a.node_self.id)).map (innerSumOf g)).sum =
      ((chainIds cur).map (innerSumOf g)).sum := by
    rw [chainIds_eq]
    simp [List.map_cons, List.sum_cons]
  have hsub : ∀ x ∈ chainIds cur, x ∈ g.edges.keys := by
    intro x hx
    rw [chainIds_eq] at hx
    rcases List.mem_cons.mp hx with rfl | hx2
    · exact AList.mem_keys.mp (AList.lookup_isSome.mp (edge_cost_le_innerSumOf hedge).2)
    · obtain ⟨a, ha, hax⟩ := List.mem_map.mp hx2
      have := chain_anc_edges g s cur hcv a ha
      rw [hax] at this
      exact AList.mem_keys.mp (AList.lookup_isSome.mp this)
  have h2 : ((chainIds cur).map (innerSumOf g)).sum ≤ totalCost g :=
    sum_map_le_of_subset (innerSumOf g) _ _ hnodup (AList.keys_nodup g.edges) hsub
  omega

/-- Frontier lemma: under the loop invariant, every path of the graph either
ends at a node already settled at no greater cost, or passes through a queue
entry whose key is at most the path's cost. -/
theorem frontier_min {g : RoadNetwork} {s t : Int} {pq : List (Nat × RoadPathedNode)}
    {gscore : Int → Option Nat} {visited : VisitMap}
    (inv : LoopInv g s t pq gscore visited) :
    ∀ {u : Int} {D k : Nat}, HasPath g s u D k →
      (u ∈ visited ∧ ∃ cu, gscore u = some cu ∧ cu ≤ D) ∨ (∃ e ∈ pq, e.1 ≤ D) := by
  intro u D k hp
  induction hp with
  | refl =>
    by_cases hs : s ∈ visited
    · exact Or.inl ⟨hs, 0, inv.src_zero, le_rfl⟩
    · obtain ⟨e, he, _, hkey⟩ := inv.live s hs 0 inv.src_zero
      exact Or.inr ⟨e, he, by omega⟩
  | @snoc u2 v2 c2 k2 w2 fl2 hpath hedge ih =>
    rcases ih with ⟨huv, cu, hgu, hcu⟩ | ⟨e, he, hle⟩
    · rcases inv.relaxed u2 huv v2 w2 fl2 hedge with hvvis | ⟨cv, cu2, hgv, hgu2, hle2⟩
      · obtain ⟨cv2, hgv2, hminv⟩ := inv.settled_min v2 hvvis
        exact Or.inl ⟨hvvis, cv2, hgv2, hminv.2 _ _ (HasPath.snoc hpath hedge)⟩
      · rw [hgu] at hgv
        injection hgv with hgveq
        by_cases hvv : v2 ∈ visited
        · obtain ⟨cv3, hgv3, hminv⟩ := inv.settled_min v2 hvv
          exact Or.inl ⟨hvv, cv3, hgv3, hminv.2 _ _ (HasPath.snoc hpath hedge)⟩
        · obtain ⟨e, he, _, hkey⟩ := inv.live v2 hvv cu2 hgu2
          refine Or.inr ⟨e, he, ?_⟩
          omega
    · exact Or.inr ⟨e, he, by omega⟩

/-- The `let`-free form of one relaxation step. -/
theorem relaxOne_eq (heur : Option HeurMap) (cur : RoadPathedNode) (st : RelaxState)
    (nb : Node × Nat) :
    relaxOne heur cur st nb =
      if cur.distance_from_start + nb.2 < (st.gscore nb.1.id).getD u64MAX then
        { pq := (cur.distance_from_start + nb.2 + hLookup heur nb.1.id,
            RoadPathedNode.child nb.1 (cur.distance_from_start + nb.2) cur) :: st.pq
          gscore := gUpdate st.gscore nb.1.id (cur.distance_from_start + nb.2)
          prev := st.prev.insert nb.1.id cur.node_self.id }
      else st := rfl

/-- One relaxation step preserves the fold invariant, never increases any
g-score, leaves settled g-scores untouched, does not increase the loop
measure, and leaves the processed neighbor with a g-score at most the
tentative cost through the expanded node. -/
theorem relaxOne_post {g : RoadNetwork} {s : Int} {visited2 : VisitMap} {cur : RoadPathedNode}
    (hcv : ChainValid g s cur) (hnodup : (chainIds cur).Nodup)
    (hidxvis : cur.node_self.id ∈ visited2)
    (hanc : ∀ a ∈ ancestorRecords cur, a.node_self.id ∈ visited2)
    (htc : totalCost g < u64MAX) (nb : Node × Nat) (st : RelaxState)
    (hnb : g.nodes.lookup nb.1.id = some nb.1) (hnbvis : nb.1.id ∉ visited2)
    (hedge : ∃ fl, edgeEntry g cur.node_self.id nb.1.id = some (nb.2, fl))
    (hInv : RelaxInv g s visited2 st) :
    RelaxInv g s visited2 (relaxOne none cur st nb) ∧
    (∀ v c, st.gscore v = some c → ∃ c2, c2 ≤ c ∧ (relaxOne none cur st nb).gscore v = some c2) ∧
    (∀ v, v ∈ visited2 → (relaxOne none cur st nb).gscore v = st.gscore v) ∧
    ((relaxOne none cur st nb).pq.length + 2 * potSum g (relaxOne none cur st nb).gscore ≤
      st.pq.length + 2 * potSum g st.gscore) ∧
    (∃ c2, (relaxOne none cur st nb).gscore nb.1.id = some c2 ∧
      c2 ≤ cur.distance_from_start + nb.2) := by
  obtain ⟨fl, hedge⟩ := hedge
  have htemp : cur.distance_from_start + nb.2 ≤ totalCost g :=
    chain_ext_le_totalCost hcv hnodup hedge
  by_cases hlt : cur.distance_from_start + nb.2 < (st.gscore nb.1.id).getD u64MAX
  · have hR : relaxOne none cur st nb =
        { pq := (cur.distance_from_start + nb.2 + hLookup none nb.1.id,
            RoadPathedNode.child nb.1 (cur.distance_from_start + nb.2) cur) :: st.pq
          gscore := gUpdate st.gscore nb.1.id (cur.distance_from_start + nb.2)
          prev := st.prev.insert nb.1.id cur.node_self.id } := by
      rw [relaxOne_eq, if_pos hlt]
    have hpq : (relaxOne none cur st nb).pq =
        (cur.distance_from_start + nb.2 + hLookup none nb.1.id,
          RoadPathedNode.child nb.1 (cur.distance_from_start + nb.2) cur) :: st.pq := by
      rw [hR]
    have hgs : (relaxOne none cur st nb).gscore =
        gUpdate st.gscore nb.1.id (cur.distance_from_start + nb.2) := by
      rw [hR]
    have hmemv : nb.1.id ∈ g.nodes := AList.lookup_isSome.mp (by rw [hnb]; rfl)
    have hnotchain : nb.1.id ∉ chainIds cur := by
      rw [chainIds_eq]
      intro hmem
      rcases List.mem_cons.mp hmem with heq | hmem2
      · exact hnbvis (heq ▸ hidxvis)
      · obtain ⟨a, ha, hax⟩ := List.mem_map.mp hmem2
        exact hnbvis (hax ▸ hanc a ha)
    refine ⟨⟨?_, ?_, ?_, ?_, ?_, ?_, ?_, ?_, ?_⟩, ?_, ?_, ?_, ?_⟩
    · intro e he
      rw [hpq] at he
      rcases List.mem_cons.mp he with rfl | he2
      · simp [hLookup, RoadPathedNode.distance_from_start]
      · exact hInv.rec_key e he2
    · intro e he
      rw [hpq] at he
      rcases List.mem_cons.mp he with rfl | he2
      · exact ⟨hcv, hnb, nb.2, fl, hedge, rfl⟩
      · exact hInv.rec_valid e he2
    · intro e he
      rw [hpq] at he
      rcases List.mem_cons.mp he with rfl | he2
      · exact List.nodup_cons.mpr ⟨hnotchain, hnodup⟩
      · exact hInv.rec_nodup e he2
    · intro e he a ha
      rw [hpq] at he
      rcases List.mem_cons.mp he with rfl | he2
      · simp only [ancestorRecords] at ha
        rcases List.mem_cons.mp ha with rfl | ha2
        · exact hidxvis
        · exact hanc a ha2
      · exact hInv.rec_anc e he2 a ha
    · intro v c hv
      rw [hgs] at hv
      unfold gUpdate at hv
      by_cases hveq : v = nb.1.id
      · rw [if_pos hveq] at hv
        injection hv with hc
        subst hveq
        subst hc
        have hk0 := chain_hasPath g s cur hcv
        exact ⟨(ancestorRecords cur).length + 1, HasPath.snoc hk0 hedge⟩
      · rw [if_neg hveq] at hv
        exact hInv.gs_path v c hv
    · intro v c hv
      rw [hgs] at hv
      unfold gUpdate at hv
      by_cases hveq : v = nb.1.id
      · rw [if_pos hveq] at hv
        injection hv with hc
        omega
      · rw [if_neg hveq] at hv
        exact hInv.gs_bound v c hv
    · intro v c hv
      rw [hgs] at hv
      unfold gUpdate at hv
      by_cases hveq : v = nb.1.id
      · exact hveq ▸ hmemv
      · rw [if_neg hveq] at hv
        exact hInv.gs_keys v c hv
    · intro v hnv c hv
      rw [hgs] at hv
      unfold gUpdate at hv
      by_cases hveq : v = nb.1.id
      · rw [if_pos hveq] at hv
        injection hv with hc
        refine ⟨(cur.distance_from_start + nb.2 + hLookup none nb.1.id,
            RoadPathedNode.child nb.1 (cur.distance_from_start + nb.2) cur), ?_, ?_, ?_⟩
        · rw [hpq]
          exact List.mem_cons_self _ _
        · show nb.1.id = v
          exact hveq.symm
        · show cur.distance_from_start + nb.2 + hLookup none nb.1.id = c
          simp only [hLookup]
          omega
      · rw [if_neg hveq] at hv
        obtain ⟨e, he, hid, hkey⟩ := hInv.live v hnv c hv
        refine ⟨e, ?_, hid, hkey⟩
        rw [hpq]
        exact List.mem_cons_of_mem _ he
    · intro e he
      rw [hpq] at he
      rcases List.mem_cons.mp he with rfl | he2
      · refine ⟨cur.distance_from_start + nb.2, ?_, ?_⟩
        · rw [hgs]
          show gUpdate st.gscore nb.1.id (cur.distance_from_start + nb.2) nb.1.id = _
          unfold gUpdate
          rw [if_pos rfl]
        · show _ ≤ cur.distance_from_start + nb.2 + hLookup none nb.1.id
          simp [hLookup]
      · obtain ⟨c, hc, hle⟩ := hInv.key_ge e he2
        rw [hgs]
        unfold gUpdate
        by_cases hveq : e.2.node_self.id = nb.1.id
        · refine ⟨cur.distance_from_start + nb.2, ?_, ?_⟩
          · rw [if_pos hveq]
          · rw [hveq] at hc
            rw [hc] at hlt
            simp only [Option.getD_some] at hlt
            omega
        · refine ⟨c, ?_, hle⟩
          rw [if_neg hveq]
          exact hc
    · intro v c hv
      rw [hgs]
      unfold gUpdate
      by_cases hveq : v = nb.1.id
      · refine ⟨cur.distance_from_start + nb.2, ?_, ?_⟩
        · rw [hveq] at hv
          rw [hv] at hlt
          simp only [Option.getD_some] at hlt
          omega
        · rw [if_pos hveq]
      · refine ⟨c, le_rfl, ?_⟩
        rw [if_neg hveq]
        exact hv
    · intro v hvvis
      have hveq : v ≠ nb.1.id := fun h => hnbvis (h ▸ hvvis)
      rw [hgs]
      unfold gUpdate
      rw [if_neg hveq]
    · rw [hpq, hgs]
      have hlt2 : potSum g (gUpdate st.gscore nb.1.id (cur.distance_from_start + nb.2)) <
          potSum g st.gscore := by
        unfold potSum
        apply sum_map_lt_of_point _ _ g.nodes.keys (AList.keys_nodup g.nodes) nb.1.id
          (AList.mem_keys.mpr hmemv)
        · intro x _ hx
          have hxeq : gUpdate st.gscore nb.1.id (cur.distance_from_start + nb.2) x =
              st.gscore x := by
            unfold gUpdate
            rw [if_neg hx]
          rw [hxeq]
        · have hupd : gUpdate st.gscore nb.1.id (cur.distance_from_start + nb.2) nb.1.id =
              some (cur.distance_from_start + nb.2) := by
            unfold gUpdate
            rw [if_pos rfl]
          rw [hupd]
          simp only [Option.getD_some]
          cases hg0 : st.gscore nb.1.id with
          | none =>
            rw [hg0] at hlt
            simp only [Option.getD_none] at hlt
            simp only [hg0, Option.getD_none]
            omega
          | some c0 =>
            rw [hg0] at hlt
            simp only [Option.getD_some] at hlt
            have hc0 := hInv.gs_bound _ _ hg0
            simp only [hg0, Option.getD_some]
            omega
      simp only [List.length_cons]
      omega
    · refine ⟨cur.distance_from_start + nb.2, ?_, le_rfl⟩
      rw [hgs]
      show gUpdate st.gscore nb.1.id _ nb.1.id = _
      unfold gUpdate
      rw [if_pos rfl]
  · rw [relaxOne_eq, if_neg hlt]
    push_neg at hlt
    refine ⟨hInv, fun v c h => ⟨c, le_rfl, h⟩, fun v _ => rfl, le_rfl, ?_⟩
    cases hg0 : st.gscore nb.1.id with
    | none =>
      rw [hg0] at hlt
      simp only [Option.getD_none] at hlt
      omega
    | some c0 =>
      rw [hg0] at hlt
      simp only [Option.getD_some] at hlt
      exact ⟨c0, rfl, hlt⟩

/-- The whole relaxation fold preserves the fold invariant, never increases
any g-score, leaves settled g-scores untouched, does not increase the loop
measure, and leaves every neighbor with a g-score at most the tentative cost
through the expanded node. -/
theorem relaxAll_post {g : RoadNetwork} {s : Int} {visited2 : VisitMap} {cur : RoadPathedNode}
    (hcv : ChainValid g s cur) (hnodup : (chainIds cur).Nodup)
    (hidxvis : cur.node_self.id ∈ visited2)
    (hanc : ∀ a ∈ ancestorRecords cur, a.node_self.id ∈ visited2)
    (htc : totalCost g < u64MAX) :
    ∀ (nbrs : List (Node × Nat)) (st : RelaxState),
      (∀ nb ∈ nbrs, g.nodes.lookup nb.1.id = some nb.1 ∧ nb.1.id ∉ visited2 ∧
        ∃ fl, edgeEntry g cur.node_self.id nb.1.id = some (nb.2, fl)) →
      RelaxInv g s visited2 st →
      RelaxInv g s visited2 (relaxAll none cur nbrs st) ∧
      (∀ v c, st.gscore v = some c →
        ∃ c2, c2 ≤ c ∧ (relaxAll none cur nbrs st).gscore v = some c2) ∧
      (∀ v, v ∈ visited2 → (relaxAll none cur nbrs st).gscore v = st.gscore v) ∧
      ((relaxAll none cur nbrs st).pq.length + 2 * potSum g (relaxAll none cur nbrs st).gscore ≤
        st.pq.length + 2 * potSum g st.gscore) ∧
      (∀ nb ∈ nbrs, ∃ c2, (relaxAll none cur nbrs st).gscore nb.1.id = some c2 ∧
        c2 ≤ cur.distance_from_start + nb.2) := by
  intro nbrs
  induction nbrs with
  | nil =>
    intro st _ hInv
    exact ⟨hInv, fun v c h => ⟨c, le_rfl, h⟩, fun v _ => rfl, le_rfl,
      fun nb h => absurd h (List.not_mem_nil nb)⟩
  | cons nb rest ih =>
    intro st hnbs hInv
    obtain ⟨hnb1, hnb2, hnb3⟩ := hnbs nb (List.mem_cons_self _ _)
    obtain ⟨hInv1, hmono1, hfroz1, hmeas1, hbound1⟩ :=
      relaxOne_post hcv hnodup hidxvis hanc htc nb st hnb1 hnb2 hnb3 hInv
    obtain ⟨hInv2, hmono2, hfroz2, hmeas2, hcomp2⟩ :=
      ih (relaxOne none cur st nb) (fun x hx => hnbs x (List.mem_cons_of_mem _ hx)) hInv1
    have hstep : relaxAll none cur (nb :: rest) st =
        relaxAll none cur rest (relaxOne none cur st nb) := rfl
    rw [hstep]
    refine ⟨hInv2, ?_, ?_, ?_, ?_⟩
    · intro v c hv
      obtain ⟨c1, hc1, hv1⟩ := hmono1 v c hv
      obtain ⟨c2, hc2, hv2⟩ := hmono2 v c1 hv1
      exact ⟨c2, le_trans hc2 hc1, hv2⟩
    · intro v hvvis
      rw [hfroz2 v hvvis, hfroz1 v hvvis]
    · exact le_trans hmeas2 hmeas1
    · intro x hx
      rcases List.mem_cons.mp hx with rfl | hx2
      · obtain ⟨c1, hv1, hle1⟩ := hbound1
        obtain ⟨c2, hc2, hv2⟩ := hmono2 _ c1 hv1
        exact ⟨c2, hv2, le_trans hc2 hle1⟩
      · exact hcomp2 x hx2

theorem alist_entries_le {β γ : Type} (s1 : AList (fun _ : Int => β))
    (s2 : AList (fun _ : Int => γ)) (hsub : ∀ k, k ∈ s1 → k ∈ s2) :
    s1.entries.length ≤ s2.entries.length := by
  have h1 : s1.keys.length = s1.entries.length := by
    simp [AList.keys, List.keys]
  have h2 : s2.keys.length = s2.entries.length := by
    simp [AList.keys, List.keys]
  have h3 : ∀ x ∈ s1.keys, x ∈ s2.keys := by
    intro x hx
    exact AList.mem_keys.mpr (hsub x (AList.mem_keys.mp hx))
  have h4 := nodup_subset_length_le (AList.keys_nodup s1) h3
  omega

/-- One unfolding of the search loop at positive fuel. -/
theorem dijkstraLoop_succ (g : RoadNetwork) (ub maxSettled : Nat) (target_id : Int)
    (heur : Option HeurMap) (consider : Bool) (fuel : Nat)
    (pq : List (Nat × RoadPathedNode)) (gscore : Int → Option Nat) (visited : VisitMap)
    (prev : PrevMap) :
    dijkstraLoop g ub maxSettled target_id heur consider (fuel + 1) pq gscore visited prev =
      match popMin pq with
      | none => some (none, prev, visited)
      | some ((_, cur), pqRest) =>
        if cur.node_self.id = target_id then
          some (some cur, prev, visited.insert cur.node_self.id cur.distance_from_start)
        else if cur.distance_from_start > ub ∨
            (visited.insert cur.node_self.id cur.distance_from_start).entries.length >
              maxSettled then
          some (none, prev, visited.insert cur.node_self.id cur.distance_from_start)
        else if cur.distance_from_start > (gscore cur.node_self.id).getD u64MAX then
          dijkstraLoop g ub maxSettled target_id heur consider fuel pqRest gscore
            (visited.insert cur.node_self.id cur.distance_from_start) prev
        else
          match getNeighborsCore g (visited.insert cur.node_self.id cur.distance_from_start)
              cur consider with
          | none => none
          | some nbrs =>
            dijkstraLoop g ub maxSettled target_id heur consider fuel
              (relaxAll heur cur nbrs ⟨pqRest, gscore, prev⟩).pq
              (relaxAll heur cur nbrs ⟨pqRest, gscore, prev⟩).gscore
              (visited.insert cur.node_self.id cur.distance_from_start)
              (relaxAll heur cur nbrs ⟨pqRest, gscore, prev⟩).prev := rfl

/-- The search loop, run under the invariant with enough fuel, large enough
bounds, no heuristic and no arc-flag filtering, returns a record for the
target carrying the minimum path cost. -/
theorem dijkstraLoop_optimal (g : RoadNetwork) (s t : Int) (dmin : Nat)
    (hwf : GraphWF g) (hmin : IsMinDist g s t dmin)
    (ub maxSettled : Nat) (hub : totalCost g ≤ ub) (hms : g.nodes.entries.length ≤ maxSettled)
    (htc : totalCost g < u64MAX) :
    ∀ (fuel : Nat) (pq : List (Nat × RoadPathedNode)) (gscore : Int → Option Nat)
      (visited : VisitMap) (prev : PrevMap),
      LoopInv g s t pq gscore visited →
      loopMeasure g pq gscore < fuel →
      ∃ r prev2 vis2,
        dijkstraLoop g ub maxSettled t none false fuel pq gscore visited prev =
          some (some r, prev2, vis2) ∧ r.node_self.id = t ∧ r.distance_from_start = dmin := by
  intro fuel
  induction fuel with
  | zero =>
    intro pq gscore visited prev _ hm
    omega
  | succ fuel ih =>
    intro pq gscore visited prev inv hm
    obtain ⟨kp, hpath_t⟩ := hmin.1
    cases hpop : popMin pq with
    | none =>
      have hpq : pq = [] := by
        cases pq with
        | nil => rfl
        | cons x xs =>
          have hx := popMin_cons_isSome x xs
          rw [hpop] at hx
          cases hx
      rcases frontier_min inv hpath_t with ⟨htv, _⟩ | ⟨e, he, _⟩
      · exact absurd htv inv.t_not_settled
      · rw [hpq] at he
        exact absurd he (List.not_mem_nil e)
    | some pr =>
      obtain ⟨⟨key, cur⟩, pqRest⟩ := pr
      obtain ⟨hperm, hminpq⟩ := popMin_spec hpop
      have hcurmem : (key, cur) ∈ pq := popMin_mem hpop
      have hkey : key = cur.distance_from_start := inv.rec_key _ hcurmem
      have hcv : ChainValid g s cur := inv.rec_valid _ hcurmem
      have hnodup := inv.rec_nodup _ hcurmem
      have hancv := inv.rec_anc_settled _ hcurmem
      obtain ⟨cg, hcg, hcgle⟩ := inv.key_ge _ hcurmem
      by_cases hidx : cur.node_self.id = t
      · have hstep : dijkstraLoop g ub maxSettled t none false (fuel + 1) pq gscore visited
            prev = some (some cur, prev,
              visited.insert cur.node_self.id cur.distance_from_start) := by
          rw [dijkstraLoop_succ, hpop]
          simp only []
          rw [if_pos hidx]
        refine ⟨cur, prev, _, hstep, hidx, ?_⟩
        obtain ⟨kk, hpk⟩ := inv.gscore_path _ _ hcg
        rw [hidx] at hpk
        have h1 : dmin ≤ cg := hmin.2 _ _ hpk
        rcases frontier_min inv hpath_t with ⟨htv, _⟩ | ⟨e, he, hle⟩
        · exact absurd htv inv.t_not_settled
        · have h2 : key ≤ e.1 := hminpq e he
          omega
      · have hcost_le : cur.distance_from_start ≤ totalCost g :=
          chain_dist_le_totalCost hcv hnodup
        have hidxnode : cur.node_self.id ∈ g.nodes := chain_head_mem hcv
        have hlen : (visited.insert cur.node_self.id cur.distance_from_start).entries.length ≤
            g.nodes.entries.length := by
          apply alist_entries_le
          intro k hk
          rcases (AList.mem_insert _).mp hk with rfl | hk2
          · exact hidxnode
          · exact inv.settled_nodes k hk2
        have hstop : ¬(cur.distance_from_start > ub ∨
            (visited.insert cur.node_self.id cur.distance_from_start).entries.length >
              maxSettled) := by
          push_neg
          constructor
          · omega
          · omega
        have hlenpq : pq.length = pqRest.length + 1 := by
          have := hperm.length_eq
          simpa using this
        by_cases hstale : cur.distance_from_start > (gscore cur.node_self.id).getD u64MAX
        · -- stale pop: the expanded node is already settled; skip it
          have hgd : (gscore cur.node_self.id).getD u64MAX = cg := by
            rw [hcg]
            rfl
          have hidxvis : cur.node_self.id ∈ visited := by
            by_contra hnv
            obtain ⟨e, he, hid, hkeye⟩ := inv.live _ hnv _ hcg
            have hme := hminpq e he
            omega
          have hmem2 : ∀ k, k ∈ visited.insert cur.node_self.id cur.distance_from_start ↔
              k ∈ visited := by
            intro k
            rw [AList.mem_insert]
            constructor
            · rintro (rfl | h)
              · exact hidxvis
              · exact h
            · exact Or.inr
          have hrestm : ∀ e ∈ pqRest, e ∈ pq := popMin_rest_mem hpop
          have inv2 : LoopInv g s t pqRest gscore
              (visited.insert cur.node_self.id cur.distance_from_start) := by
            refine ⟨?_, ?_, ?_, ?_, inv.gscore_path, inv.gscore_bound, inv.gscore_keys,
              ?_, ?_, ?_, ?_, ?_, inv.src_zero, ?_⟩
            · exact fun e he => inv.rec_key e (hrestm e he)
            · exact fun e he => inv.rec_valid e (hrestm e he)
            · exact fun e he => inv.rec_nodup e (hrestm e he)
            · exact fun e he a ha => (hmem2 _).mpr (inv.rec_anc_settled e (hrestm e he) a ha)
            · intro v hnv c hc
              have hnv2 : v ∉ visited := fun h => hnv ((hmem2 v).mpr h)
              obtain ⟨e, he, hid, hkeye⟩ := inv.live v hnv2 c hc
              have he2 : e ∈ (key, cur) :: pqRest := hperm.mem_iff.mp he
              rcases List.mem_cons.mp he2 with rfl | he3
              · exact absurd ((hmem2 _).mpr (hid ▸ hidxvis)) hnv
              · exact ⟨e, he3, hid, hkeye⟩
            · exact fun e he => inv.key_ge e (hrestm e he)
            · exact fun v hv => inv.settled_min v ((hmem2 v).mp hv)
            · exact fun v hv => inv.settled_nodes v ((hmem2 v).mp hv)
            · intro v hv u w fl he
              rcases inv.relaxed v ((hmem2 v).mp hv) u w fl he with h | h
              · exact Or.inl ((hmem2 u).mpr h)
              · exact Or.inr h
            · exact fun h => inv.t_not_settled ((hmem2 t).mp h)
          have hstep : dijkstraLoop g ub maxSettled t none false (fuel + 1) pq gscore visited
              prev = dijkstraLoop g ub maxSettled t none false fuel pqRest gscore
                (visited.insert cur.node_self.id cur.distance_from_start) prev := by
            rw [dijkstraLoop_succ, hpop]
            simp only []
            rw [if_neg hidx, if_neg hstop, if_pos hstale]
          rw [hstep]
          apply ih pqRest gscore _ prev inv2
          unfold loopMeasure at hm ⊢
          omega
        · -- fresh pop at the current best g-score: expand the node
          have hceq : cg = cur.distance_from_start := by
            rw [hcg] at hstale
            simp only [Option.getD_some] at hstale
            omega
          have hmin_idx : IsMinDist g s cur.node_self.id cur.distance_from_start := by
            constructor
            · obtain ⟨kk, hpk⟩ := inv.gscore_path _ _ hcg
              exact ⟨kk, hceq ▸ hpk⟩
            · intro c k hp
              by_cases hvis0 : cur.node_self.id ∈ visited
              · obtain ⟨c2, hc2, hmin2⟩ := inv.settled_min _ hvis0
                rw [hcg] at hc2
                injection hc2 with he2
                have h3 := hmin2.2 _ _ hp
                omega
              · rcases frontier_min inv hp with ⟨hviss, _⟩ | ⟨e, he, hle⟩
                · exact absurd hviss hvis0
                · have h3 := hminpq e he
                  omega
          have hidxvis2 : cur.node_self.id ∈
              visited.insert cur.node_self.id cur.distance_from_start :=
            (AList.mem_insert _).mpr (Or.inl rfl)
          have hanc2 : ∀ a ∈ ancestorRecords cur, a.node_self.id ∈
              visited.insert cur.node_self.id cur.distance_from_start :=
            fun a ha => (AList.mem_insert _).mpr (Or.inr (hancv a ha))
          obtain ⟨nbrs, hnb, hsound, hcompl⟩ := getNeighborsCore_spec g
            (visited.insert cur.node_self.id cur.distance_from_start) cur hwf
          have hrestm : ∀ e ∈ pqRest, e ∈ pq := popMin_rest_mem hpop
          have hInv0 : RelaxInv g s (visited.insert cur.node_self.id cur.distance_from_start)
              ⟨pqRest, gscore, prev⟩ := by
            refine ⟨?_, ?_, ?_, ?_, inv.gscore_path, inv.gscore_bound, inv.gscore_keys,
              ?_, ?_⟩
            · exact fun e he => inv.rec_key e (hrestm e he)
            · exact fun e he => inv.rec_valid e (hrestm e he)
            · exact fun e he => inv.rec_nodup e (hrestm e he)
            · exact fun e he a ha =>
                (AList.mem_insert _).mpr (Or.inr (inv.rec_anc_settled e (hrestm e he) a ha))
            · intro v hnv c hc
              have hnv2 : v ∉ visited := fun h => hnv ((AList.mem_insert _).mpr (Or.inr h))
              obtain ⟨e, he, hid, hkeye⟩ := inv.live v hnv2 c hc
              have he2 : e ∈ (key, cur) :: pqRest := hperm.mem_iff.mp he
              rcases List.mem_cons.mp he2 with rfl | he3
              · exact absurd (hid ▸ hidxvis2) hnv
              · exact ⟨e, he3, hid, hkeye⟩
            · exact fun e he => inv.key_ge e (hrestm e he)
          have hnbfacts : ∀ nb ∈ nbrs, g.nodes.lookup nb.1.id = some nb.1 ∧
              nb.1.id ∉ visited.insert cur.node_self.id cur.distance_from_start ∧
              ∃ fl, edgeEntry g cur.node_self.id nb.1.id = some (nb.2, fl) := by
            intro nb hnbm
            obtain ⟨h1, h2, h3⟩ := hsound nb hnbm
            exact ⟨h1, AList.lookup_eq_none.mp h2, h3⟩
          obtain ⟨hInv', hmono, hfroz, hmeas, hcomp⟩ :=
            relaxAll_post hcv hnodup hidxvis2 hanc2 htc nbrs ⟨pqRest, gscore, prev⟩
              hnbfacts hInv0
          have hgsidx : (relaxAll none cur nbrs ⟨pqRest, gscore, prev⟩).gscore
              cur.node_self.id = some cur.distance_from_start := by
            rw [hfroz _ hidxvis2]
            rw [hceq] at hcg
            exact hcg
          have inv2 : LoopInv g s t (relaxAll none cur nbrs ⟨pqRest, gscore, prev⟩).pq
              (relaxAll none cur nbrs ⟨pqRest, gscore, prev⟩).gscore
              (visited.insert cur.node_self.id cur.distance_from_start) := by
            refine ⟨hInv'.rec_key, hInv'.rec_valid, hInv'.rec_nodup, hInv'.rec_anc,
              hInv'.gs_path, hInv'.gs_bound, hInv'.gs_keys, hInv'.live, hInv'.key_ge,
              ?_, ?_, ?_, ?_, ?_⟩
            · intro v hv
              rcases (AList.mem_insert _).mp hv with rfl | hv2
              · exact ⟨cur.distance_from_start, hgsidx, hmin_idx⟩
              · obtain ⟨c2, hc2, hm2⟩ := inv.settled_min v hv2
                refine ⟨c2, ?_, hm2⟩
                rw [hfroz v ((AList.mem_insert _).mpr (Or.inr hv2))]
                exact hc2
            · intro v hv
              rcases (AList.mem_insert _).mp hv with rfl | hv2
              · exact hidxnode
              · exact inv.settled_nodes v hv2
            · intro v hv u w fl he
              rcases (AList.mem_insert _).mp hv with rfl | hv2
              · by_cases hu : u ∈ visited.insert cur.node_self.id cur.distance_from_start
                · exact Or.inl hu
                · obtain ⟨nd, hndm, hndid⟩ := hcompl u w fl he (AList.lookup_eq_none.mpr hu)
                  obtain ⟨c2, hc2, hle2⟩ := hcomp (nd, w) hndm
                  rw [hndid] at hc2
                  exact Or.inr ⟨cur.distance_from_start, c2, hgsidx, hc2, hle2⟩
              · rcases inv.relaxed v hv2 u w fl he with h | ⟨cv, cu, hgv, hgu, hle2⟩
                · exact Or.inl ((AList.mem_insert _).mpr (Or.inr h))
                · obtain ⟨cu2, hcu2, hgu2⟩ := hmono u cu hgu
                  refine Or.inr ⟨cv, cu2, ?_, hgu2, by omega⟩
                  rw [hfroz v hv]
                  exact hgv
            · obtain ⟨c2, hc2, hg2⟩ := hmono s 0 inv.src_zero
              rw [Nat.le_zero.mp hc2] at hg2
              exact hg2
            · intro h
              rcases (AList.mem_insert _).mp h with heq | h2
              · exact hidx heq.symm
              · exact inv.t_not_settled h2
          have hstep : dijkstraLoop g ub maxSettled t none false (fuel + 1) pq gscore visited
              prev = dijkstraLoop g ub maxSettled t none false fuel
                (relaxAll none cur nbrs ⟨pqRest, gscore, prev⟩).pq
                (relaxAll none cur nbrs ⟨pqRest, gscore, prev⟩).gscore
                (visited.insert cur.node_self.id cur.distance_from_start)
                (relaxAll none cur nbrs ⟨pqRest, gscore, prev⟩).prev := by
            rw [dijkstraLoop_succ, hpop]
            simp only []
            rw [if_neg hidx, if_neg hstop, if_neg hstale, hnb]
          rw [hstep]
          apply ih _ _ _ _ inv2
          have hmeas2 : (relaxAll none cur nbrs ⟨pqRest, gscore, prev⟩).pq.length +
              2 * potSum g (relaxAll none cur nbrs ⟨pqRest, gscore, prev⟩).gscore ≤
              pqRest.length + 2 * potSum g gscore := hmeas
          unfold loopMeasure at hm ⊢
          omega

theorem potSum_le (g : RoadNetwork) (gs : Int → Option Nat) :
    potSum g gs ≤ g.nodes.entries.length * (totalCost g + 1) := by
  have h1 : potSum g gs ≤ g.nodes.keys.length * (totalCost g + 1) :=
    sum_map_le_length_mul _ _ _ (fun x _ => min_le_right _ _)
  have h2 : g.nodes.keys.length = g.nodes.entries.length := by
    simp [AList.keys, List.keys]
  rw [h2] at h1
  exact h1

/-- The invariant holds on the initial search state. -/
theorem initial_LoopInv (g : RoadNetwork) (s t : Int) (source : Node) (hwf : GraphWF g)
    (hsrc : g.nodes.lookup s = some source) :
    LoopInv g s t [(0, RoadPathedNode.root source 0)] (gUpdate (fun _ => none) s 0) ∅ := by
  have hsid : source.id = s := hwf.id_eq s source hsrc
  refine ⟨?_, ?_, ?_, ?_, ?_, ?_, ?_, ?_, ?_, ?_, ?_, ?_, ?_, ?_⟩
  · intro e he
    rcases List.mem_singleton.mp he with rfl
    rfl
  · intro e he
    rcases List.mem_singleton.mp he with rfl
    exact ⟨hsid, rfl, hsrc⟩
  · intro e he
    rcases List.mem_singleton.mp he with rfl
    exact List.nodup_singleton _
  · intro e he a ha
    rcases List.mem_singleton.mp he with rfl
    simp only [ancestorRecords] at ha
    exact absurd ha (List.not_mem_nil a)
  · intro v c hv
    unfold gUpdate at hv
    by_cases hveq : v = s
    · rw [if_pos hveq] at hv
      injection hv with hc
      subst hveq
      exact ⟨0, hc ▸ HasPath.refl⟩
    · rw [if_neg hveq] at hv
      cases hv
  · intro v c hv
    unfold gUpdate at hv
    by_cases hveq : v = s
    · rw [if_pos hveq] at hv
      injection hv with hc
      omega
    · rw [if_neg hveq] at hv
      cases hv
  · intro v c hv
    unfold gUpdate at hv
    by_cases hveq : v = s
    · subst hveq
      exact AList.lookup_isSome.mp (by rw [hsrc]; rfl)
    · rw [if_neg hveq] at hv
      cases hv
  · intro v _ c hv
    unfold gUpdate at hv
    by_cases hveq : v = s
    · rw [if_pos hveq] at hv
      injection hv with hc
      refine ⟨(0, RoadPathedNode.root source 0), List.mem_singleton.mpr rfl, ?_, ?_⟩
      · show source.id = v
        rw [hsid, hveq]
      · exact hc
    · rw [if_neg hveq] at hv
      cases hv
  · intro e he
    rcases List.mem_singleton.mp he with rfl
    refine ⟨0, ?_, le_rfl⟩
    show gUpdate (fun _ => none) s 0 source.id = some 0
    unfold gUpdate
    rw [if_pos hsid]
  · intro v hv
    exact absurd hv (AList.not_mem_empty v)
  · intro v hv
    exact absurd hv (AList.not_mem_empty v)
  · intro v hv
    exact absurd hv (AList.not_mem_empty v)
  · show gUpdate (fun _ => none) s 0 s = some 0
    unfold gUpdate
    rw [if_pos rfl]
  · exact AList.not_mem_empty t

/-- The fuel supplied by the modelled `dijkstra` covers the initial loop
measure. -/
theorem initial_measure (g : RoadNetwork) (s : Int) (source : Node) :
    loopMeasure g [(0, RoadPathedNode.root source 0)] (gUpdate (fun _ => none) s 0) <
      dijkstraFuel g := by
  have hpot := potSum_le g (gUpdate (fun _ => none) s 0)
  unfold loopMeasure dijkstraFuel
  have hring : 2 * (g.nodes.entries.length + 1) * (totalCost g + 2) =
      2 * (g.nodes.entries.length * (totalCost g + 1)) + 2 * g.nodes.entries.length +
        2 * totalCost g + 4 := by ring
  simp only [List.length_singleton]
  omega

/-- C1 (confirmed): on a graph built from a well-formed node map, with the
default maximum cost and settle-count bounds, no heuristic and no arc-flag
filtering, `find_path` between two surviving nodes returns, whenever a path
exists at all, a record whose `distance_from_start` is the minimum total
edge cost over all paths from the source to the target.  The graph totals
are assumed representable (`totalCost` below `u64::MAX`, node count at most
`u64::MAX`), matching the machine-integer regime of the source. -/
theorem claim_C1_optimality {nm : NodeMap} {ways : List Way} {g : RoadNetwork}
    (hg : build_graph nm ways = some g) (hwfnm : WFNodeMap nm)
    {s t : Int} (hs : s ∈ g.nodes) (ht : t ∈ g.nodes)
    {dmin : Nat} (hmin : IsMinDist g s t dmin)
    (htc : totalCost g < u64MAX) (hn : g.nodes.entries.length ≤ u64MAX) :
    ∃ r prev d2, (RoadDijkstra.new g).find_path s t none false =
      some ((some r, prev), d2) ∧ r.node_self.id = t ∧ r.distance_from_start = dmin := by
  have hwf : GraphWF g := build_GraphWF hg hwfnm
  have hsrcS : (g.nodes.lookup s).isSome := AList.lookup_isSome.mpr hs
  obtain ⟨source, hsrc⟩ := Option.isSome_iff_exists.mp hsrcS
  have hinv := initial_LoopInv g s t source hwf hsrc
  have hmeas := initial_measure g s source
  obtain ⟨r, prev2, vis2, hrun, hid, hdist⟩ :=
    dijkstraLoop_optimal g s t dmin hwf hmin u64MAX u64MAX (le_of_lt htc) hn htc
      (dijkstraFuel g) [(0, RoadPathedNode.root source 0)] (gUpdate (fun _ => none) s 0)
      ∅ ∅ hinv hmeas
  refine ⟨r, prev2, { RoadDijkstra.new g with visited_nodes := vis2 }, ?_, hid, hdist⟩
  show (RoadDijkstra.new g).dijkstra s t none false = _
  unfold RoadDijkstra.dijkstra
  simp only [RoadDijkstra.new]
  rw [hsrc]
  simp only []
  rw [if_neg (by
    rintro ⟨_, hnone⟩
    rw [Option.isNone_iff_eq_none] at hnone
    exact absurd ht (AList.lookup_eq_none.mp hnone))]
  rw [hrun]

/-- Witness for C1 on the concrete two-node fixture: the minimum 1-to-2 cost
is 0 (one edge of cost 0), and the default-bound search returns a record of
that distance. -/
theorem claim_C1_optimality_witness :
    ∃ r prev d2, (RoadDijkstra.new gAB).find_path 1 2 none false =
      some ((some r, prev), d2) ∧ r.node_self.id = 2 ∧ r.distance_from_start = 0 :=
  claim_C1_optimality build_gAB (wfNodeMap_of_all (by decide)) (by decide) (by decide)
    ⟨⟨1, HasPath.snoc HasPath.refl (by decide :
        edgeEntry gAB 1 2 = some (0, false))⟩, fun c k _ => Nat.zero_le c⟩
    (by decide) (by decide)

/-- C9 counterexample: with both fixture nodes recorded at count `0`, a node
"recorded with count 0" plainly exists, yet `get_unvisted_node_id` returns
`none`, because the early length test `map.len() == nodes.len()` fires
before counts are inspected. -/
theorem claim_C9_counterexample :
    (build_graph nmAB waysAB).map
        (fun g => ((RoadDijkstra.new g).get_unvisted_node_id cmZero,
          g.nodes.lookup 1 |>.isSome)) = some (none, true) ∧
    cmZero.lookup 1 = some 0 := by
  exact ⟨by decide, by decide⟩

end CatenaryRouting
